import Mathlib

/-!
# The interpreter `sh.c`: a shallow embedding and its verified properties

The embedding follows `src/sh.c` function by function.

* A C string is the list of its characters before the terminating NUL (`Str`).
* A `char**` array is the list of its slots (`Block`); the length of the list is the
  number of slots of the allocation.  A slot is uninitialised, holds `NULL`, or holds a
  string.  A null pointer of type `char**` is `none : Option Block`.
* A store outside the allocation, a load from a slot that was never written or lies
  outside the allocation, a dereference of `NULL` and a `strcpy` beyond the destination
  buffer are undefined behaviour; the embedding reports them as a `Fault`.
* `malloc` and `realloc` are taken to succeed (the out-of-memory branches are left out).
* The `int` counters of the code are natural numbers here; those of `list_from_line` never
  exceed the length of the line plus one, so they stay in the range of `int` for every line
  of fewer than 2^31 - 1 characters.
* `fork`, `wait`, `pipe` and `close` are answered by an oracle `Sys` that sees the history of
  system calls made so far (`World`); the history is the observable behaviour of the shell.
  What a child does after `fork` is not followed: it reaches the parent as a status word.
  The one exception is `redirect_cmd_in_out`, which is run on the table of pipe descriptors
  that the child has from the shell at the `fork` (`child_fds`).
* The prompt and the messages written to the terminal are left out, and so is the release of
  memory by `free`, except for the loads that `free_block` makes to find what to release and
  for the `free(cmd->args)` of `free_command`, which the history records.
-/

namespace Sh

/-! ## Data model -/

/-- A C string: its characters up to, not including, the terminating NUL. -/
abbrev Str := List Char

/-- One slot of a `char**` array. -/
inductive Cell where
  | uninit : Cell
  | null : Cell
  | str (s : Str) : Cell
  deriving DecidableEq, Repr

/-- A heap array of `char*`; its length is the number of allocated slots. -/
abbrev Block := List Cell

/-- Undefined behaviour met while running the code (an invalid load or store, a `strcpy`
past its buffer, the use of a variable whose initialisation was jumped over), and the
exhaustion of the step budget of the model of a loop. -/
inductive Fault where
  | fuel : Fault
  | invalid_access : Fault
  | buffer_overflow : Fault
  | indeterminate_value : Fault
  deriving DecidableEq, Repr

deriving instance DecidableEq for Except

/-! ## C library -/

/-- Length of the longest prefix of `s` made of characters of `accept` (`strspn`). -/
def strspn (s accept : Str) : Nat :=
  (s.takeWhile (fun c => decide (c ∈ accept))).length

/-- Length of the longest prefix of `s` free of the characters of `reject` (`strcspn`). -/
def strcspn (s reject : Str) : Nat :=
  (s.takeWhile (fun c => !decide (c ∈ reject))).length

/-- One call of `strtok` on the text `s` that starts at the current scan position: `none` when
no token is left, otherwise the token and the text at the saved position for the next call. -/
def strtok (s delim : Str) : Option (Str × Str) :=
  let s1 := s.drop (strspn s delim)
  if s1 = [] then none
  else
    let n := strcspn s1 delim
    some (s1.take n, (s1.drop n).drop 1)

/-- A fresh array of `sz` slots (`init_list`, a `malloc`). -/
def init_list (sz : Nat) : Block :=
  List.replicate sz Cell.uninit

/-- The array `a` resized to `n` slots; the slots kept hold what they held (`realloc`). -/
def realloc (a : Block) (n : Nat) : Block :=
  a.take n ++ List.replicate (n - a.length) Cell.uninit

/-- The store `a[i] = c`; a fault when slot `i` is outside the allocation. -/
def store (a : Block) (i : Nat) (c : Cell) : Except Fault Block :=
  if i < a.length then Except.ok (a.set i c) else Except.error Fault.invalid_access

/-- The strings of a `NULL`-terminated array, read from slot 0 up to the first `NULL`;
a fault when an uninitialised slot or the end of the allocation comes first. -/
def read_list : Block → Except Fault (List Str)
  | [] => Except.error Fault.invalid_access
  | Cell.uninit :: _ => Except.error Fault.invalid_access
  | Cell.null :: _ => Except.ok []
  | Cell.str s :: rest =>
    match read_list rest with
    | Except.ok l => Except.ok (s :: l)
    | Except.error f => Except.error f

/-! ## Line tokenizer -/

/-- The `for` loop of `list_from_line`: `q` is the text at the `strtok` scan position, `al` the
result array, `idx` the next free slot and `sz` the capacity the code believes `al` has. -/
def list_from_line_loop (delim : Str) : Nat → Str → Block → Nat → Nat →
    Except Fault (Block × Nat × Nat)
  | 0, _, _, _, _ => Except.error Fault.fuel
  | fuel + 1, q, al, idx, sz =>
    match strtok q delim with
    | none => Except.ok (al, idx, sz)
    | some (p, save) =>
      let sz1 := if idx = sz then sz * 2 else sz
      let al1 := if idx = sz then realloc al sz1 else al
      match store al1 idx (Cell.str p) with
      | Except.error f => Except.error f
      | Except.ok al2 => list_from_line_loop delim fuel save al2 (idx + 1) sz1

/-- The function `list_from_line(line, delim, count)`: the `NULL`-terminated array of the
tokens of `line` and the value written to `*count`. -/
def list_from_line (line delim : Str) : Except Fault (Block × Nat) :=
  match list_from_line_loop delim (line.length + 1) line (init_list 1) 0 1 with
  | Except.error f => Except.error f
  | Except.ok (al, idx, sz) =>
    let al1 := if idx = sz then realloc al (sz + 1) else al
    match store al1 idx Cell.null with
    | Except.error f => Except.error f
    | Except.ok al2 => Except.ok (al2, idx)

/-- Splitting `line` on the character `d` and dropping the empty fields: the tokenizer as the
specification words it. -/
def split_drop_empty (line : Str) (d : Char) : List Str :=
  (line.splitOn d).filter (fun f => decide (f ≠ []))

/-- The stores `al[idx++] = p` of the loop of `list_from_line`, in the order in which they are
made: for each the index written and the number of slots that the array has at that moment
(after the `realloc` of the iteration, if there is one). -/
def list_from_line_loop_stores (delim : Str) : Nat → Str → Block → Nat → Nat → List (Nat × Nat)
  | 0, _, _, _, _ => []
  | fuel + 1, q, al, idx, sz =>
    match strtok q delim with
    | none => []
    | some (p, save) =>
      let sz1 := if idx = sz then sz * 2 else sz
      let al1 := if idx = sz then realloc al sz1 else al
      (idx, al1.length) ::
        match store al1 idx (Cell.str p) with
        | Except.error _ => []
        | Except.ok al2 => list_from_line_loop_stores delim fuel save al2 (idx + 1) sz1

/-- All the stores into the result array that `list_from_line(line, delim, count)` makes, the
store `al[idx] = NULL` last: for each the index written and the number of slots that the array
has at that moment. -/
def list_from_line_stores (line delim : Str) : List (Nat × Nat) :=
  list_from_line_loop_stores delim (line.length + 1) line (init_list 1) 0 1 ++
    match list_from_line_loop delim (line.length + 1) line (init_list 1) 0 1 with
    | Except.error _ => []
    | Except.ok (al, idx, sz) =>
      [(idx, (if idx = sz then realloc al (sz + 1) else al).length)]

/-- The capacity as the specification words it, when `n` fields are in the array: it starts at
1 and doubles each time a field arrives while the array is full. -/
def capacity_for : Nat → Nat
  | 0 => 1
  | n + 1 => if n = capacity_for n then capacity_for n * 2 else capacity_for n

/-! ## Operating system -/

/-- One `struct command` of a pipeline: the argument array and the two descriptors
(`-1` when absent). -/
structure command where
  args : Block
  fd_in : Int
  fd_out : Int
  deriving DecidableEq, Repr

/-- A system call made by the shell process, with its outcome.  `fork argv fd_in fd_out` is a
successful `fork` whose child goes on to run `argv` with its input and output taken from the
two descriptors (`-1`: inherited). -/
inductive Event where
  | fork (argv : List Str) (fd_in fd_out : Int) : Event
  | fork_failed : Event
  | wait (status : Int) : Event
  | wait_failed : Event
  | pipe (rd wr : Int) : Event
  | pipe_failed : Event
  | close (fd : Int) : Event
  | close_failed (fd : Int) : Event
  | free_args (argv : List Str) : Event
  deriving DecidableEq, Repr

/-- The history of the system calls made so far, oldest first. -/
abbrev World := List Event

/-- The operating system as the shell sees it: the answer to the next call of each kind, given
the history. `wait` answers `none` for `-1`, otherwise the status word of the reaped child;
`pipe` answers the read and the write descriptor. -/
structure Sys where
  fork : World → Bool
  wait : World → Option Int
  pipe : World → Option (Int × Int)
  close : World → Int → Bool

/-- The macro `WIFEXITED(status)` of `<sys/wait.h>`: `((status) & 0x7f) == 0`. -/
def WIFEXITED (status : Int) : Bool :=
  status % 128 == 0

/-- The strings that `execvp` finds in the argument array `av`, up to the first slot that is
not a string. -/
def argv_of : Block → List Str
  | Cell.str s :: rest => s :: argv_of rest
  | _ => []

/-- The function `execute(av, status)` as the parent runs it: `fork`, then `wait(status)`.
`status` is `none` for a null pointer, otherwise the value of the pointed `int`.  The child
lives on in the `fork` event only; whatever it does (also a failed `execvp`) reaches the
parent as the status word that `wait` reports. -/
def execute (sys : Sys) (av : Block) (status : Option Int) (w : World) :
    Int × Option Int × World :=
  if sys.fork w then
    let w1 := w ++ [Event.fork (argv_of av) (-1) (-1)]
    match sys.wait w1 with
    | some s => (0, status.map (fun _ => s), w1 ++ [Event.wait s])
    | none => (-1, status, w1 ++ [Event.wait_failed])
  else (-1, status, w ++ [Event.fork_failed])

/-- The loop of `exec_block` over the slots of the block, from the current one on. -/
def exec_block_loop (sys : Sys) : Block → Option Int → World →
    Except (Fault × World) (Int × Option Int × World)
  | [], _, w => Except.error (Fault.invalid_access, w)
  | Cell.uninit :: _, _, w => Except.error (Fault.invalid_access, w)
  | Cell.null :: _, status, w => Except.ok (0, status, w)
  | Cell.str s :: rest, status, w =>
    match list_from_line s [' '] with
    | Except.error f => Except.error (f, w)
    | Except.ok (arglist, _) =>
      match execute sys arglist status w with
      | (r, status1, w1) =>
        if r = -1 then Except.ok (-1, status1, w1)
        else exec_block_loop sys rest status1 w1

/-- The function `exec_block(blk, status)`; `blk` is `none` for a null pointer. -/
def exec_block (sys : Sys) (blk : Option Block) (status : Option Int) (w : World) :
    Except (Fault × World) (Int × Option Int × World) :=
  match blk with
  | none => Except.error (Fault.invalid_access, w)
  | some b => exec_block_loop sys b status w

/-! ## Control-flow context -/

/-- The values of `ctx.state`: `def_state` = 0, `if_state` = 1, `then_state` = 2,
`else_state` = 3, `fi_state` = 4. -/
inductive State where
  | def_state : State
  | if_state : State
  | then_state : State
  | else_state : State
  | fi_state : State
  deriving DecidableEq, Repr

/-- The record `struct context`; a block pointer that is `NULL` is `none`. -/
structure context where
  if_block : Option Block
  then_block : Option Block
  else_block : Option Block
  state : State
  deriving DecidableEq, Repr

/-- The context that `empty_context` leaves. -/
def empty_context : context :=
  { if_block := none, then_block := none, else_block := none, state := State.def_state }

/-- The function `set_context_state(cmd, ctx)`. -/
def set_context_state (cmd : Str) (ctx : context) : context :=
  if cmd = "if".toList then { ctx with state := State.if_state }
  else if cmd = "then".toList then { ctx with state := State.then_state }
  else if cmd = "else".toList then { ctx with state := State.else_state }
  else if cmd = "fi".toList then { ctx with state := State.fi_state }
  else ctx

/-- The function `is_control_cmd(cmd)`. -/
def is_control_cmd (cmd : Str) : Bool :=
  cmd = "if".toList || cmd = "then".toList || cmd = "else".toList || cmd = "fi".toList

/-- The function `is_valid_cmd(ctx, cmd)`, with its `int` result. -/
def is_valid_cmd (ctx : context) (cmd : Str) : Int :=
  if cmd = "if".toList then
    (if ctx.state = State.def_state then 1 else 0)
  else if cmd = "then".toList then
    (if ctx.state = State.if_state ∧ ctx.if_block ≠ none then 1 else 0)
  else if cmd = "else".toList then
    (if ctx.state = State.then_state ∧ ctx.if_block ≠ none then 1 else 0)
  else -1

/-- The function `block_by_state(ctx)`. -/
def block_by_state (ctx : context) : Option Block :=
  match ctx.state with
  | State.if_state => ctx.if_block
  | State.else_state => ctx.else_block
  | State.then_state => ctx.then_block
  | _ => none

/-- The function `set_block_by_state(ctx, blk)`. -/
def set_block_by_state (ctx : context) (blk : Option Block) : context :=
  match ctx.state with
  | State.if_state => { ctx with if_block := blk }
  | State.else_state => { ctx with else_block := blk }
  | State.then_state => { ctx with then_block := blk }
  | _ => ctx

/-- The value of `sizeof(char*)`, the size in bytes of the buffer that `add_cmd` allocates for
the copy of a command (LP64). -/
def sizeof_ptr : Nat := 8

/-- The function `add_cmd(ctx, cmd, sz, idx)`: the result, the context and the new values of
`*sz` and `*idx`.  The array is written through the local pointer `blk`; the context sees the
write when its pointer for the current state is that array, which `set_block_by_state`
arranges in the three collecting states and in no other. -/
def add_cmd (ctx : context) (cmd : Str) (sz idx : Nat) :
    Except Fault (Int × context × Nat × Nat) :=
  let blk0 : Block := match block_by_state ctx with
    | some b => b
    | none => init_list sz
  let sz1 := if idx = sz then sz * 2 else sz
  let blk1 := if idx = sz then realloc blk0 sz1 else blk0
  if sizeof_ptr < cmd.length + 1 then Except.error Fault.buffer_overflow
  else
    match store blk1 idx (Cell.str cmd) with
    | Except.error f => Except.error f
    | Except.ok blk2 => Except.ok (0, set_block_by_state ctx (some blk2), sz1, idx + 1)

/-- The function `add_eob(ctx, idx, sz)`: it writes the `NULL` that ends the block of the
current state, through the local pointer `blk`, which is the pointer of the context in the
three collecting states (`realloc(NULL, n)` is `malloc(n)`). -/
def add_eob (ctx : context) (idx sz : Nat) : Except Fault (Int × context) :=
  let blk1 : Option Block :=
    if idx = sz then some (realloc ((block_by_state ctx).getD []) (sz + 1))
    else block_by_state ctx
  match blk1 with
  | none => Except.error Fault.invalid_access
  | some b =>
    match store b idx Cell.null with
    | Except.error f => Except.error f
    | Except.ok b1 => Except.ok (0, set_block_by_state ctx (some b1))

/-- The function `exec_context(ctx)`. -/
def exec_context (sys : Sys) (ctx : context) (w : World) :
    Except (Fault × World) (Int × World) :=
  match exec_block sys ctx.if_block (some 0) w with
  | Except.error e => Except.error e
  | Except.ok (r, status, w1) =>
    if r = -1 then Except.ok (-1, w1)
    else if WIFEXITED (status.getD 0) then
      match exec_block sys ctx.then_block status w1 with
      | Except.error e => Except.error e
      | Except.ok (r1, _, w2) => Except.ok (if r1 = -1 then -1 else 0, w2)
    else
      match exec_block sys ctx.else_block status w1 with
      | Except.error e => Except.error e
      | Except.ok (r1, _, w2) => Except.ok (if r1 = -1 then -1 else 0, w2)

/-- The function `free_block(blk)`: it walks the array up to its `NULL`. -/
def free_block : Block → Except Fault Unit
  | [] => Except.error Fault.invalid_access
  | Cell.uninit :: _ => Except.error Fault.invalid_access
  | Cell.null :: _ => Except.ok ()
  | Cell.str _ :: rest => free_block rest

/-- The release of one block pointer of the context in `free_context`. -/
def free_block_opt (blk : Option Block) : Except Fault Unit :=
  match blk with
  | none => Except.ok ()
  | some b => free_block b

/-- The function `free_context(ctx)`: the if-, the else- and the then-block are released in
this order, then the context is emptied. -/
def free_context (ctx : context) : Except Fault context :=
  match free_block_opt ctx.if_block with
  | Except.error f => Except.error f
  | Except.ok _ =>
    match free_block_opt ctx.else_block with
    | Except.error f => Except.error f
    | Except.ok _ =>
      match free_block_opt ctx.then_block with
      | Except.error f => Except.error f
      | Except.ok _ => Except.ok empty_context

/-! ## Pipelines -/

/-- The function `is_pipeline(line)`. -/
def is_pipeline (line : Str) : Bool :=
  decide ('|' ∈ line)

/-- The function `free_command(cmd)`: the result, the command as it is left (a descriptor whose
`close` failed is set to `-1`) and the history. -/
def free_command (sys : Sys) (cmd : command) (w : World) : Int × command × World :=
  let w0 := w ++ [Event.free_args (argv_of cmd.args)]
  -- the code under the label `error`
  let on_error (c : command) (w1 : World) : Int × command × World :=
    let w2 := if c.fd_in ≠ -1 then
        (if sys.close w1 c.fd_in then w1 ++ [Event.close c.fd_in]
         else w1 ++ [Event.close_failed c.fd_in])
      else w1
    let w3 := if c.fd_out ≠ -1 then
        (if sys.close w2 c.fd_out then w2 ++ [Event.close c.fd_out]
         else w2 ++ [Event.close_failed c.fd_out])
      else w2
    (-1, c, w3)
  if cmd.fd_in ≠ -1 ∧ sys.close w0 cmd.fd_in = false then
    on_error { cmd with fd_in := -1 } (w0 ++ [Event.close_failed cmd.fd_in])
  else
    let w1 := if cmd.fd_in ≠ -1 then w0 ++ [Event.close cmd.fd_in] else w0
    if cmd.fd_out ≠ -1 ∧ sys.close w1 cmd.fd_out = false then
      on_error { cmd with fd_out := -1 } (w1 ++ [Event.close_failed cmd.fd_out])
    else
      (0, cmd, if cmd.fd_out ≠ -1 then w1 ++ [Event.close cmd.fd_out] else w1)

/-- The loop of `free_commands` over the first `n` commands. -/
def free_commands_loop (sys : Sys) : Nat → List command → World → Int × List command × World
  | 0, cmds, w => (0, cmds, w)
  | _ + 1, [], w => (0, [], w)
  | n + 1, c :: rest, w =>
    match free_command sys c w with
    | (r, c1, w1) =>
      if r = -1 then (-1, c1 :: rest, w1)
      else
        match free_commands_loop sys n rest w1 with
        | (r2, rest1, w2) => (r2, c1 :: rest1, w2)

/-- The function `free_commands(cmds, len, started_num)`: it runs `free_command` on the
commands of index below `len - started_num - 1`. -/
def free_commands (sys : Sys) (cmds : List command) (len started_num : Int) (w : World) :
    Int × List command × World :=
  free_commands_loop sys (len - started_num - 1).toNat cmds w

/-- The loop under the label `error` of `run_pipeline`: `proc_num` calls of `wait(NULL)`,
whose failures are only reported. -/
def wait_children (sys : Sys) : Nat → World → World
  | 0, w => w
  | n + 1, w =>
    match sys.wait w with
    | some s => wait_children sys n (w ++ [Event.wait s])
    | none => wait_children sys n (w ++ [Event.wait_failed])

/-- The loop of `run_pipeline` from stage `i` on: `done` are the stages before `i` as they were
left, `proc_num` the children counted so far. -/
def run_pipeline_loop (sys : Sys) : List command → List command → Nat → World →
    Int × List command × World
  | [], done, proc_num, w => ((proc_num : Int), done, w)
  | c :: rest, done, proc_num, w =>
    if sys.fork w then
      match free_command sys c (w ++ [Event.fork (argv_of c.args) c.fd_in c.fd_out]) with
      | (r, c1, w1) =>
        if r = -1 then (-1, done ++ c1 :: rest, wait_children sys proc_num w1)
        else run_pipeline_loop sys rest (done ++ [c1]) (proc_num + 1) w1
    else (-1, done ++ c :: rest, wait_children sys proc_num (w ++ [Event.fork_failed]))

/-- The function `run_pipeline(cmds, len)` as the parent runs it: the result (the number of
children, or `-1`), the commands as they are left and the history. -/
def run_pipeline (sys : Sys) (cmds : List command) (w : World) : Int × List command × World :=
  run_pipeline_loop sys cmds [] 0 w

/-- The first loop of `process_pipeline`: one command for each string of the array. -/
def build_commands : Block → Except Fault (List command)
  | [] => Except.error Fault.invalid_access
  | Cell.uninit :: _ => Except.error Fault.invalid_access
  | Cell.null :: _ => Except.ok []
  | Cell.str s :: rest =>
    match list_from_line s [' '] with
    | Except.error f => Except.error f
    | Except.ok (args, _) =>
      match build_commands rest with
      | Except.error f => Except.error f
      | Except.ok cs => Except.ok ({ args := args, fd_in := -1, fd_out := -1 } :: cs)

/-- The command list with `f` applied to the command of index `i`. -/
def update_command (f : command → command) : Nat → List command → List command
  | _, [] => []
  | 0, c :: rest => f c :: rest
  | i + 1, c :: rest => c :: update_command f i rest

/-- The second loop of `process_pipeline`, with `n` rounds left from index `i`: a `pipe` for
each pair of neighbours.  The result is `false` when a `pipe` failed. -/
def connect_commands (sys : Sys) : Nat → Nat → List command → World →
    Bool × List command × World
  | 0, _, cmds, w => (true, cmds, w)
  | n + 1, i, cmds, w =>
    match sys.pipe w with
    | none => (false, cmds, w ++ [Event.pipe_failed])
    | some (rd, wr) =>
      connect_commands sys n (i + 1)
        (update_command (fun c => { c with fd_in := rd }) (i + 1)
          (update_command (fun c => { c with fd_out := wr }) i cmds))
        (w ++ [Event.pipe rd wr])

/-- The loop `while (proc_num-- != 0)` of `process_pipeline`: the value of `proc_num` when the
loop is left (`-1` at its regular end) and whether a `wait` failed. -/
def wait_pipeline (sys : Sys) : Nat → World → Bool × Int × World
  | 0, w => (true, -1, w)
  | n + 1, w =>
    match sys.wait w with
    | some s => wait_pipeline sys n (w ++ [Event.wait s])
    | none => (false, (n : Int), w ++ [Event.wait_failed])

/-- The function `process_pipeline(line)`. -/
def process_pipeline (sys : Sys) (line : Str) (w : World) :
    Except (Fault × World) (Int × World) :=
  match list_from_line line ['|'] with
  | Except.error f => Except.error (f, w)
  | Except.ok (list, len) =>
    match build_commands list with
    | Except.error f => Except.error (f, w)
    | Except.ok cmds =>
      match connect_commands sys (len - 1) 0 cmds w with
      | (false, _, w1) =>
        -- `goto error` jumps over `int proc_num = 0;`: `free_commands` gets an indeterminate value
        Except.error (Fault.indeterminate_value, w1)
      | (true, cmds1, w1) =>
        match run_pipeline sys cmds1 w1 with
        | (proc_num, cmds2, w2) =>
          if proc_num = -1 then
            Except.ok (-1, (free_commands sys cmds2 (len : Int) (-1) w2).2.2)
          else
            match wait_pipeline sys proc_num.toNat w2 with
            | (true, _, w3) => Except.ok (0, w3)
            | (false, left, w3) =>
              Except.ok (-1, (free_commands sys cmds2 (len : Int) left w3).2.2)

/-! ## Main loop -/

/-- The variables of `main` that live across the iterations of its loop, and the history. -/
structure Shell where
  ctx : context
  idx : Nat
  sz : Nat
  world : World
  deriving DecidableEq, Repr

/-- How one iteration of the loop of `main` ends: the loop reads the next line (`next`), the
process leaves with `exit(EXIT_SUCCESS)` or with `exit(EXIT_FAILURE)`, or the iteration runs
into undefined behaviour. -/
inductive Step where
  | next (s : Shell) : Step
  | exit_success (s : Shell) : Step
  | exit_failure (s : Shell) : Step
  | fault (f : Fault) (w : World) : Step
  deriving DecidableEq, Repr

/-- The state of `main` when it enters its loop. -/
def init_shell : Shell :=
  { ctx := empty_context, idx := 0, sz := 1, world := [] }

/-- The code under the label `error` of `main`: `free_context`, then `exit(EXIT_FAILURE)`. -/
def main_error (s : Shell) : Step :=
  match free_context s.ctx with
  | Except.error f => Step.fault f s.world
  | Except.ok c => Step.exit_failure { s with ctx := c }

/-- The function `trim_suffix(s)`: the store `s[strlen(s) - 1] = 0`. -/
def trim_suffix (s : Str) : Except Fault Str :=
  if s = [] then Except.error Fault.invalid_access else Except.ok s.dropLast

/-- The loop `while (*cp != NULL)` of `main` that hands the fields of a line to `add_cmd`. -/
def add_cmds : Block → context → Nat → Nat → Except Fault (context × Nat × Nat)
  | [], _, _, _ => Except.error Fault.invalid_access
  | Cell.uninit :: _, _, _, _ => Except.error Fault.invalid_access
  | Cell.null :: _, ctx, sz, idx => Except.ok (ctx, sz, idx)
  | Cell.str s :: rest, ctx, sz, idx =>
    match add_cmd ctx s sz idx with
    | Except.error f => Except.error f
    | Except.ok (_, ctx1, sz1, idx1) => add_cmds rest ctx1 sz1 idx1

/-- The branch of the loop of `main` for a control keyword, `line` being trimmed. -/
def main_control (sys : Sys) (line : Str) (s : Shell) : Step :=
  if is_valid_cmd s.ctx line = 0 then main_error s
  else if s.ctx.state = State.def_state then
    Step.next { s with ctx := set_context_state line s.ctx }
  else
    match add_eob s.ctx s.idx s.sz with
    | Except.error f => Step.fault f s.world
    | Except.ok (_, ctx1) =>
      let ctx2 := set_context_state line ctx1
      if ctx2.state = State.fi_state then
        match exec_context sys ctx2 s.world with
        | Except.error (f, w) => Step.fault f w
        | Except.ok (r, w) =>
          if r = -1 then main_error { s with ctx := ctx2, world := w }
          else
            match free_context ctx2 with
            | Except.error f => Step.fault f w
            | Except.ok ctx3 => Step.next { ctx := ctx3, idx := 0, sz := 1, world := w }
      else Step.next { ctx := ctx2, idx := 0, sz := 1, world := s.world }

/-- One iteration of the loop of `main` on the line `line` that `getline` returned (the
newline that ends it included). -/
def main_body (sys : Sys) (line : Str) (s : Shell) : Step :=
  if line = ['\n'] then Step.next s
  else if line.take 4 = "exit".toList then Step.exit_success s
  else
    match trim_suffix line with
    | Except.error f => Step.fault f s.world
    | Except.ok line1 =>
      if is_pipeline line1 then
        match process_pipeline sys line1 s.world with
        | Except.error (f, w) => Step.fault f w
        | Except.ok (r, w) =>
          if r = -1 then main_error { s with world := w }
          else Step.next { s with world := w }
      else if is_control_cmd line1 then main_control sys line1 s
      else
        match list_from_line line1 [';'] with
        | Except.error f => Step.fault f s.world
        | Except.ok (cmdline, _) =>
          if s.ctx.state = State.def_state then
            match exec_block sys (some cmdline) none s.world with
            | Except.error (f, w) => Step.fault f w
            | Except.ok (r, _, w) =>
              if r = -1 then main_error { s with world := w }
              else Step.next { s with world := w }
          else
            match add_cmds cmdline s.ctx s.sz s.idx with
            | Except.error f => Step.fault f s.world
            | Except.ok (ctx1, sz1, idx1) =>
              Step.next { ctx := ctx1, idx := idx1, sz := sz1, world := s.world }

/-- The loop of `main` over the lines read one after the other, up to the first line that
ends the process. -/
def run_lines (sys : Sys) : List Str → Shell → Step
  | [], s => Step.next s
  | line :: rest, s =>
    match main_body sys line s with
    | Step.next s1 => run_lines sys rest s1
    | r => r

/-- The commands of the children created in the history, in the order of their creation. -/
def launched : World → List (List Str)
  | [] => []
  | Event.fork argv _ _ :: rest => argv :: launched rest
  | _ :: rest => launched rest

/-- The history of a step, whichever way the step ends. -/
def Step.world : Step → World
  | Step.next s => s.world
  | Step.exit_success s => s.world
  | Step.exit_failure s => s.world
  | Step.fault _ w => w

/-- The history of running the commands `cmds` one after the other, each child created and
then waited for, with the status words `statuses`. -/
def sequential : List Str → List Int → World
  | c :: cs, st :: sts =>
    Event.fork (split_drop_empty c ' ') (-1) (-1) :: Event.wait st :: sequential cs sts
  | _, _ => []

/-- The value of `*status` after the waits that reported `statuses`. -/
def last_status (status : Option Int) (statuses : List Int) : Option Int :=
  status.map (fun v => statuses.getLast?.getD v)

/-- A line that `main` takes for a line of commands: it has no `|`, is none of the keywords
`if`, `then`, `else`, `fi`, and does not pass the test `strncmp(line, "exit", 4) == 0`. -/
def plain_line (l : Str) : Prop :=
  is_pipeline l = false ∧ is_control_cmd l = false ∧ (l ++ ['\n']).take 4 ≠ "exit".toList

instance (l : Str) : Decidable (plain_line l) := by
  unfold plain_line
  infer_instance

/-- The part of `process_pipeline` that comes before the call of `run_pipeline`: whether every
`pipe` succeeded, the commands as they are handed to `run_pipeline`, and the history. -/
def pipeline_commands (sys : Sys) (line : Str) (w : World) :
    Except Fault (Bool × List command × World) :=
  match list_from_line line ['|'] with
  | Except.error f => Except.error f
  | Except.ok (list, len) =>
    match build_commands list with
    | Except.error f => Except.error f
    | Except.ok cmds => Except.ok (connect_commands sys (len - 1) 0 cmds w)

/-- The part of `process_pipeline` from the call of `run_pipeline` on, for the commands `cmds1`
of a line of `len` stages. -/
def pipeline_run (sys : Sys) (cmds1 : List command) (len : Nat) (w1 : World) :
    Except (Fault × World) (Int × World) :=
  match run_pipeline sys cmds1 w1 with
  | (proc_num, cmds2, w2) =>
    if proc_num = -1 then
      Except.ok (-1, (free_commands sys cmds2 (len : Int) (-1) w2).2.2)
    else
      match wait_pipeline sys proc_num.toNat w2 with
      | (true, _, w3) => Except.ok (0, w3)
      | (false, left, w3) =>
        Except.ok (-1, (free_commands sys cmds2 (len : Int) left w3).2.2)

/-- The wiring of neighbours written as a recursion over the stages: `fin` is the read end that
the pipe before the first stage of the list left for it. -/
def wire (sys : Sys) : Int → List command → World → Bool × List command × World
  | _, [], w => (true, [], w)
  | fin, [c], w => (true, [{ c with fd_in := fin }], w)
  | fin, c :: c2 :: rest, w =>
    match sys.pipe w with
    | none => (false, { c with fd_in := fin } :: c2 :: rest, w ++ [Event.pipe_failed])
    | some (rd, wr) =>
      match wire sys rd (c2 :: rest) (w ++ [Event.pipe rd wr]) with
      | (ok, tl, w1) => (ok, { c with fd_in := fin, fd_out := wr } :: tl, w1)

/-- Whether the event is a call of `wait`. -/
def is_wait : Event → Bool
  | Event.wait _ => true
  | Event.wait_failed => true
  | _ => false

/-- Whether the event is one that `execute` makes for a simple command: a `fork` whose child
keeps the input and the output of the shell (no descriptor of a pipe), or a `wait`. -/
def is_execute_event : Event → Bool
  | Event.fork _ fd_in fd_out => decide (fd_in = -1 ∧ fd_out = -1)
  | Event.fork_failed => true
  | Event.wait _ => true
  | Event.wait_failed => true
  | _ => false

/-- The history `w1` continues the history `w` by events of `execute` only: no `pipe`, no
`close`, no child attached to a pipe. -/
def only_execute_events (w w1 : World) : Prop :=
  ∃ ext, w1 = w ++ ext ∧ ∀ e ∈ ext, is_execute_event e = true

/-- An end of a pipe: the read or the write end of the `k`-th pipe created in the history. -/
inductive End where
  | rd (k : Nat) : End
  | wr (k : Nat) : End
  deriving DecidableEq, Repr

/-- The descriptor table of a process, as far as pipes go: the descriptor numbers that are open,
each with the pipe end it refers to. -/
abbrev Fdtab := List (Int × End)

/-- The table after `close(fd)`. -/
def fd_close (t : Fdtab) (fd : Int) : Fdtab :=
  t.filter (fun e => decide (e.1 ≠ fd))

/-- The table after `dup2(oldfd, newfd)`. -/
def fd_dup2 (t : Fdtab) (oldfd newfd : Int) : Fdtab :=
  match t.lookup oldfd with
  | none => t
  | some e => fd_close t newfd ++ [(newfd, e)]

/-- The table of the shell process after the history `w`, from the table `t` and with `k` pipes
created before. -/
def parent_fds_from : Nat → Fdtab → World → Fdtab
  | _, t, [] => t
  | k, t, Event.pipe rd wr :: rest =>
    parent_fds_from (k + 1) (t ++ [(rd, End.rd k), (wr, End.wr k)]) rest
  | k, t, Event.close fd :: rest => parent_fds_from k (fd_close t fd) rest
  | k, t, _ :: rest => parent_fds_from k t rest

/-- The table of the shell process after the history `w`. -/
def parent_fds (w : World) : Fdtab :=
  parent_fds_from 0 [] w

/-- The answers to the system calls of a child between `fork` and `execvp`. -/
structure ChildSys where
  dup2 : Fdtab → Int → Int → Bool
  close : Fdtab → Int → Bool

/-- The function `redirect_cmd_in_out(cmd)` as the child runs it on the table `t` that it got
from the shell at `fork`: the result, the command as it is left and the table. -/
def redirect_cmd_in_out (csys : ChildSys) (cmd : command) (t : Fdtab) :
    Int × command × Fdtab :=
  -- the code under the label `error`
  let on_error (c : command) (t1 : Fdtab) : Int × command × Fdtab :=
    let t2 := if c.fd_in ≠ -1 ∧ csys.close t1 c.fd_in = true then fd_close t1 c.fd_in else t1
    let t3 := if c.fd_out ≠ -1 ∧ csys.close t2 c.fd_out = true then fd_close t2 c.fd_out else t2
    (-1, c, t3)
  if cmd.fd_in ≠ -1 ∧ csys.dup2 t cmd.fd_in 0 = false then on_error cmd t
  else
    let t1 := if cmd.fd_in ≠ -1 then fd_dup2 t cmd.fd_in 0 else t
    if cmd.fd_in ≠ -1 ∧ csys.close t1 cmd.fd_in = false then
      on_error { cmd with fd_in := -1 } t1
    else
      let t2 := if cmd.fd_in ≠ -1 then fd_close t1 cmd.fd_in else t1
      if cmd.fd_out ≠ -1 ∧ csys.dup2 t2 cmd.fd_out 1 = false then on_error cmd t2
      else
        let t3 := if cmd.fd_out ≠ -1 then fd_dup2 t2 cmd.fd_out 1 else t2
        if cmd.fd_out ≠ -1 ∧ csys.close t3 cmd.fd_out = false then
          on_error { cmd with fd_out := -1 } t3
        else
          (0, cmd, if cmd.fd_out ≠ -1 then fd_close t3 cmd.fd_out else t3)

/-- The tables of the children created in the history `w`, in the order of their creation, each
after its `redirect_cmd_in_out`: a child starts from the table that the shell has at the
`fork`. -/
def child_fds_from (csys : ChildSys) : Nat → Fdtab → World → List Fdtab
  | _, _, [] => []
  | k, t, Event.pipe rd wr :: rest =>
    child_fds_from csys (k + 1) (t ++ [(rd, End.rd k), (wr, End.wr k)]) rest
  | k, t, Event.close fd :: rest => child_fds_from csys k (fd_close t fd) rest
  | k, t, Event.fork _ fd_in fd_out :: rest =>
    (redirect_cmd_in_out csys { args := [], fd_in := fd_in, fd_out := fd_out } t).2.2
      :: child_fds_from csys k t rest
  | k, t, _ :: rest => child_fds_from csys k t rest

/-- The tables of the children created in the history `w`. -/
def child_fds (csys : ChildSys) (w : World) : List Fdtab :=
  child_fds_from csys 0 [] w

/-- The pipe ends that a table holds. -/
def held (t : Fdtab) : List End :=
  t.map Prod.snd

/-! ## Sample inputs -/

/-- The line that `getline` returns when the operator enters the text `s`. -/
def entered (s : String) : Str :=
  s.toList ++ ['\n']

/-- A system in which every call succeeds: the child that runs `false` ends with exit status 1
(status word 256), every other child with exit status 0; the descriptors of the pipes are
numbered from 3 on. -/
def sample_sys : Sys :=
  { fork := fun _ => true
    wait := fun w => some (if (launched w).getLast? = some ["false".toList] then 256 else 0)
    pipe := fun w => some (3 + 2 * (w.length : Int), 4 + 2 * (w.length : Int))
    close := fun _ _ => true }

/-- A child whose `dup2` and `close` all succeed. -/
def sample_csys : ChildSys :=
  { dup2 := fun _ _ _ => true
    close := fun _ _ => true }

/-- A system in which `fork` succeeds `forks` times and fails from then on, `close` succeeds on
the descriptors that are open and on no other, and every other call succeeds. -/
def strict_sys (forks : Nat) : Sys :=
  { fork := fun w => decide ((launched w).length < forks)
    wait := fun _ => some 0
    pipe := fun w => some (3 + 2 * (w.length : Int), 4 + 2 * (w.length : Int))
    close := fun w fd => decide (fd ∈ (parent_fds w).map Prod.fst) }

/-- A system in which every call succeeds but `wait`, which fails. -/
def no_wait_sys : Sys :=
  { fork := fun _ => true
    wait := fun _ => none
    pipe := fun w => some (3 + 2 * (w.length : Int), 4 + 2 * (w.length : Int))
    close := fun _ _ => true }

/-- A system in which every call succeeds and every child is killed by signal 9 (status
word 9). -/
def killed_sys : Sys :=
  { fork := fun _ => true
    wait := fun _ => some 9
    pipe := fun w => some (3 + 2 * (w.length : Int), 4 + 2 * (w.length : Int))
    close := fun _ _ => true }

/-- Three commands as `process_pipeline` builds them for the line `a|b|c` when `pipe` gives
the descriptors 3, 4 and 5, 6. -/
def sample_cmds : List command :=
  [{ args := [Cell.str "a".toList, Cell.null], fd_in := -1, fd_out := 4 },
   { args := [Cell.str "b".toList, Cell.null], fd_in := 3, fd_out := 6 },
   { args := [Cell.str "c".toList, Cell.null], fd_in := 5, fd_out := -1 }]

/-! # Properties -/

theorem drop_length_takeWhile (p : Char → Bool) (l : Str) :
    l.drop (l.takeWhile p).length = l.dropWhile p := by
  induction l with
  | nil => rfl
  | cons x xs ih => by_cases h : p x <;> simp [List.takeWhile, List.dropWhile, h, ih]

theorem take_length_takeWhile (p : Char → Bool) (l : Str) :
    l.take (l.takeWhile p).length = l.takeWhile p := by
  induction l with
  | nil => rfl
  | cons x xs ih => by_cases h : p x <;> simp [List.takeWhile, h, ih]

theorem strtok_eq (s : Str) (d : Char) :
    strtok s [d] =
      if s.dropWhile (fun c => c == d) = [] then none
      else some ((s.dropWhile (fun c => c == d)).takeWhile (fun c => c != d),
        ((s.dropWhile (fun c => c == d)).dropWhile (fun c => c != d)).drop 1) := by
  have h1 : (fun c => decide (c ∈ [d])) = (fun c : Char => c == d) := by
    funext c; by_cases h : c = d <;> simp [h]
  have h2 : (fun c => !decide (c ∈ [d])) = (fun c : Char => c != d) := by
    funext c; by_cases h : c = d <;> simp [h]
  simp only [strtok, strspn, strcspn, h1, h2, drop_length_takeWhile, take_length_takeWhile]

theorem split_drop_empty_nil (d : Char) : split_drop_empty [] d = [] := by
  simp [split_drop_empty, List.splitOn]

theorem split_drop_empty_delim (d : Char) (xs : Str) :
    split_drop_empty (d :: xs) d = split_drop_empty xs d := by
  simp [split_drop_empty, List.splitOn, List.splitOnP_cons]

theorem split_drop_empty_dropWhile (d : Char) (s : Str) :
    split_drop_empty (s.dropWhile (fun c => c == d)) d = split_drop_empty s d := by
  induction s with
  | nil => rfl
  | cons x xs ih =>
    by_cases h : x = d
    · subst h
      simp [List.dropWhile_cons, split_drop_empty_delim, ih]
    · simp [List.dropWhile_cons, h]

theorem split_drop_empty_token (d x : Char) (xs : Str) (hx : x ≠ d) :
    split_drop_empty (x :: xs) d =
      (x :: xs).takeWhile (fun c => c != d) ::
        split_drop_empty (((x :: xs).dropWhile (fun c => c != d)).drop 1) d := by
  have hsplit := List.takeWhile_append_dropWhile (fun c => c != d) (x :: xs)
  have hno : ∀ c ∈ (x :: xs).takeWhile (fun c => c != d), ¬ ((fun c => c == d) c = true) := by
    intro c hc
    have := List.mem_takeWhile_imp hc
    simpa [bne] using this
  have hne : (x :: xs).takeWhile (fun c => c != d) ≠ [] := by
    simp [List.takeWhile_cons, hx]
  cases hdw : (x :: xs).dropWhile (fun c => c != d) with
  | nil =>
    rw [hdw, List.append_nil] at hsplit
    rw [hsplit] at hno hne ⊢
    simp only [List.drop_nil, split_drop_empty_nil]
    simp only [split_drop_empty, List.splitOn]
    rw [List.splitOnP_eq_single _ _ hno]
    simp
  | cons y ys =>
    have hy : y = d := by
      have := List.head_dropWhile_not (fun c => c != d) (x :: xs) (by rw [hdw]; simp)
      simp [hdw] at this
      exact this
    subst hy
    rw [hdw] at hsplit
    have h := List.splitOnP_first (fun c => c == y) _ hno y (by simp) ys
    conv_lhs => rw [← hsplit]
    simp only [split_drop_empty, List.splitOn] at *
    rw [h]
    simp [hne]

theorem store_append (m : Block) (c x : Cell) (rest : Block) :
    store (m ++ x :: rest) m.length c = Except.ok (m ++ c :: rest) := by
  simp [store]

theorem realloc_grow (a : Block) (n : Nat) (h : a.length ≤ n) :
    realloc a n = a ++ List.replicate (n - a.length) Cell.uninit := by
  simp [realloc, List.take_of_length_le h]

/-- Growing a full array to twice its size, then storing at the first free slot. -/
theorem grow_store (m : Block) (k : Nat) (c : Cell) (h1 : 1 ≤ m.length + k) :
    ∃ k1, store (if m.length = m.length + k
          then realloc (m ++ List.replicate k Cell.uninit)
            (if m.length = m.length + k then (m.length + k) * 2 else m.length + k)
          else m ++ List.replicate k Cell.uninit) m.length c
        = Except.ok (m ++ c :: List.replicate k1 Cell.uninit)
      ∧ (if m.length = m.length + k then (m.length + k) * 2 else m.length + k)
        = m.length + 1 + k1 := by
  rcases Nat.eq_zero_or_pos k with hk | hk
  · subst hk
    have hm : 1 ≤ m.length := by simpa using h1
    obtain ⟨j, hj⟩ : ∃ j, m.length = j + 1 := ⟨m.length - 1, by omega⟩
    refine ⟨j, ?_, ?_⟩
    · simp only [Nat.add_zero, if_true, List.replicate_zero, List.append_nil]
      rw [realloc_grow _ _ (by omega)]
      have : m.length * 2 - m.length = j + 1 := by omega
      rw [this, List.replicate_succ, store_append]
    · simp only [Nat.add_zero, if_true]; omega
  · obtain ⟨j, hj⟩ : ∃ j, k = j + 1 := ⟨k - 1, by omega⟩
    subst hj
    refine ⟨j, ?_, ?_⟩
    · rw [if_neg (by omega), List.replicate_succ, store_append]
    · rw [if_neg (by omega)]; omega

/-- Making room for the terminator when the array is full, then storing it. -/
theorem term_store (m : Block) (k : Nat) :
    store (if m.length = m.length + k
          then realloc (m ++ List.replicate k Cell.uninit) (m.length + k + 1)
          else m ++ List.replicate k Cell.uninit) m.length Cell.null
        = Except.ok (m ++ Cell.null :: List.replicate (k - 1) Cell.uninit) := by
  rcases Nat.eq_zero_or_pos k with hk | hk
  · subst hk
    simp only [Nat.add_zero, if_true, List.replicate_zero, List.append_nil]
    rw [realloc_grow _ _ (by omega)]
    have : m.length + 1 - m.length = 1 := by omega
    rw [this]
    exact store_append m Cell.null Cell.uninit []
  · obtain ⟨j, hj⟩ : ∃ j, k = j + 1 := ⟨k - 1, by omega⟩
    subst hj
    rw [if_neg (by omega), List.replicate_succ, store_append]
    simp

theorem read_list_terminated (fs : List Str) (rest : Block) :
    read_list (fs.map Cell.str ++ Cell.null :: rest) = Except.ok fs := by
  induction fs with
  | nil => rfl
  | cons f fs ih => simp [read_list, ih]

theorem list_from_line_loop_spec (d : Char) : ∀ (fuel : Nat) (q : Str) (done : List Str) (k : Nat),
    q.length < fuel → 1 ≤ done.length + k →
    ∃ k1, list_from_line_loop [d] fuel q
        (done.map Cell.str ++ List.replicate k Cell.uninit) done.length (done.length + k)
      = Except.ok ((done ++ split_drop_empty q d).map Cell.str ++ List.replicate k1 Cell.uninit,
          (done ++ split_drop_empty q d).length,
          (done ++ split_drop_empty q d).length + k1) := by
  intro fuel
  induction fuel with
  | zero => intro q done k h; omega
  | succ fuel ih =>
    intro q done k hq h1
    rw [list_from_line_loop, strtok_eq]
    cases hs : q.dropWhile (fun c => c == d) with
    | nil =>
      have : split_drop_empty q d = [] := by
        rw [← split_drop_empty_dropWhile, hs, split_drop_empty_nil]
      refine ⟨k, ?_⟩
      simp [this]
    | cons x xs =>
      have hx : x ≠ d := by
        have := List.head_dropWhile_not (fun c => c == d) q (by rw [hs]; simp)
        simpa [hs] using this
      have hlen : (x :: xs).length ≤ q.length := by
        rw [← hs]; exact (List.dropWhile_sublist _).length_le
      have htok : split_drop_empty q d =
          (x :: xs).takeWhile (fun c => c != d) ::
            split_drop_empty (((x :: xs).dropWhile (fun c => c != d)).drop 1) d := by
        rw [← split_drop_empty_dropWhile, hs, split_drop_empty_token d x xs hx]
      have hsave : (((x :: xs).dropWhile (fun c => c != d)).drop 1).length < fuel := by
        have h2 : ((x :: xs).dropWhile (fun c => c != d)).length ≤ (x :: xs).length :=
          (List.dropWhile_sublist _).length_le
        have h3 : ((x :: xs).dropWhile (fun c => c != d)).length < (x :: xs).length := by
          simp only [List.dropWhile_cons, bne_iff_ne, ne_eq, hx, not_false_eq_true, decide_True,
            ↓reduceIte, List.length_cons]
          have := (List.dropWhile_sublist (fun c => c != d) (l := xs)).length_le
          omega
        simp only [List.length_drop]
        omega
      obtain ⟨k1, hst, hsz⟩ := grow_store (done.map Cell.str) k
        (Cell.str ((x :: xs).takeWhile (fun c => c != d))) (by simpa using h1)
      simp only [List.length_map] at hst hsz
      simp only [reduceCtorEq, ↓reduceIte]
      rw [hst]
      simp only
      rw [hsz]
      have := ih (((x :: xs).dropWhile (fun c => c != d)).drop 1)
        (done ++ [(x :: xs).takeWhile (fun c => c != d)]) k1 hsave
        (by simp only [List.length_append, List.length_singleton]; omega)
      obtain ⟨k2, hk2⟩ := this
      refine ⟨k2, ?_⟩
      simp only [List.map_append, List.map_cons, List.map_nil, List.append_assoc,
        List.singleton_append, List.length_append, List.length_singleton] at hk2
      rw [htok]
      simp only [List.map_append, List.map_cons, List.length_append, List.length_cons]
      rw [hk2]
      simp [List.append_assoc]

theorem list_from_line_ok (line : Str) (d : Char) :
    ∃ rest, list_from_line line [d] =
      Except.ok ((split_drop_empty line d).map Cell.str ++ Cell.null :: rest,
        (split_drop_empty line d).length) := by
  obtain ⟨k1, h⟩ := list_from_line_loop_spec d (line.length + 1) line [] 1 (by omega) (by simp)
  simp only [List.map_nil, List.nil_append, List.length_nil, Nat.zero_add] at h
  have ht := term_store ((split_drop_empty line d).map Cell.str) k1
  simp only [List.length_map] at ht
  refine ⟨List.replicate (k1 - 1) Cell.uninit, ?_⟩
  rw [list_from_line]
  simp only [init_list]
  rw [h]
  simp only
  rw [ht]

theorem split_drop_empty_fields (d : Char) : ∀ (n : Nat) (q : Str), q.length ≤ n →
    ∀ f ∈ split_drop_empty q d, f ≠ [] ∧ d ∉ f := by
  intro n
  induction n with
  | zero =>
    intro q hq f hf
    have : q = [] := List.length_eq_zero.mp (by omega)
    subst this
    simp [split_drop_empty_nil] at hf
  | succ n ih =>
    intro q hq f hf
    rw [← split_drop_empty_dropWhile] at hf
    have hlen : (q.dropWhile (fun c => c == d)).length ≤ q.length :=
      (List.dropWhile_sublist _).length_le
    cases hs : q.dropWhile (fun c => c == d) with
    | nil => simp [hs, split_drop_empty_nil] at hf
    | cons x xs =>
      have hx : x ≠ d := by
        have := List.head_dropWhile_not (fun c => c == d) q (by rw [hs]; simp)
        simpa [hs] using this
      rw [hs, split_drop_empty_token d x xs hx] at hf
      rcases List.mem_cons.mp hf with h | h
      · subst h
        refine ⟨by simp [List.takeWhile_cons, hx], ?_⟩
        intro hd
        have := List.mem_takeWhile_imp hd
        simp at this
      · refine ih _ ?_ f h
        have h2 : ((x :: xs).dropWhile (fun c => c != d)).length < (x :: xs).length := by
          simp only [List.dropWhile_cons, bne_iff_ne, ne_eq, hx, not_false_eq_true, decide_True,
            ↓reduceIte, List.length_cons]
          have := (List.dropWhile_sublist (fun c => c != d) (l := xs)).length_le
          omega
        rw [hs] at hlen
        simp only [List.length_drop]
        omega

theorem split_drop_empty_all_delim (d : Char) (q : Str) (h : ∀ c ∈ q, c = d) :
    split_drop_empty q d = [] := by
  rw [← split_drop_empty_dropWhile]
  have : q.dropWhile (fun c => c == d) = [] := by
    rw [List.dropWhile_eq_nil_iff]
    intro c hc
    simp [h c hc]
  rw [this, split_drop_empty_nil]

/-- C1. For every line and every delimiter character `d`, `list_from_line` succeeds and
returns a `NULL`-terminated array whose strings are, in order, the fields obtained by
splitting the line on `d` and dropping the empty ones, with `*count` their number; no field
is empty or contains `d`, and a line made only of delimiters (the empty line included)
gives no field and count 0. -/
theorem list_from_line_fields (line : Str) (d : Char) :
    ∃ al fields, list_from_line line [d] = Except.ok (al, fields.length)
      ∧ read_list al = Except.ok fields
      ∧ fields = split_drop_empty line d
      ∧ (∀ f ∈ fields, f ≠ [] ∧ d ∉ f)
      ∧ ((∀ c ∈ line, c = d) → fields = [] ∧ fields.length = 0) := by
  obtain ⟨rest, h⟩ := list_from_line_ok line d
  refine ⟨_, split_drop_empty line d, h, read_list_terminated _ _, rfl,
    split_drop_empty_fields d line.length line (le_refl _), ?_⟩
  intro hall
  simp [split_drop_empty_all_delim d line hall]

/-! ### Collecting a block -/

theorem block_by_state_set (ctx : context) (b : Option Block)
    (h : ctx.state = State.if_state ∨ ctx.state = State.then_state ∨ ctx.state = State.else_state) :
    block_by_state (set_block_by_state ctx b) = b := by
  rcases h with h | h | h <;> simp [block_by_state, set_block_by_state, h]

theorem state_set_block (ctx : context) (b : Option Block) :
    (set_block_by_state ctx b).state = ctx.state := by
  cases hs : ctx.state <;> simp [set_block_by_state, hs]

theorem set_block_set_block (ctx : context) (a b : Option Block) :
    set_block_by_state (set_block_by_state ctx a) b = set_block_by_state ctx b := by
  cases hs : ctx.state <;> simp [set_block_by_state, hs]

/-- One `add_cmd` on a block that holds the strings `fs` in an array with `k` free slots (an
absent block counts as a fresh array of `sz` slots). -/
theorem add_cmd_append (ctx : context) (cmd : Str) (fs : List Str) (k : Nat)
    (harr : (block_by_state ctx).getD (init_list (fs.length + k))
      = fs.map Cell.str ++ List.replicate k Cell.uninit)
    (h1 : 1 ≤ fs.length + k) (hcmd : cmd.length < sizeof_ptr) :
    ∃ k1, add_cmd ctx cmd (fs.length + k) fs.length
      = Except.ok (0, set_block_by_state ctx
          (some ((fs ++ [cmd]).map Cell.str ++ List.replicate k1 Cell.uninit)),
          (fs ++ [cmd]).length + k1, (fs ++ [cmd]).length) := by
  obtain ⟨k1, hst, hsz⟩ := grow_store (fs.map Cell.str) k (Cell.str cmd)
    (by simpa using h1)
  simp only [List.length_map] at hst hsz
  refine ⟨k1, ?_⟩
  have hblk : (match block_by_state ctx with
      | some b => b
      | none => init_list (fs.length + k))
      = fs.map Cell.str ++ List.replicate k Cell.uninit := by
    rw [← harr]; cases block_by_state ctx <;> rfl
  unfold add_cmd
  simp only [hblk]
  rw [if_neg (by omega)]
  have hst2 : store
      (if fs.length = fs.length + k then
        realloc (fs.map Cell.str ++ List.replicate k Cell.uninit)
          (if fs.length = fs.length + k then (fs.length + k) * 2 else fs.length + k)
      else fs.map Cell.str ++ List.replicate k Cell.uninit) fs.length (Cell.str cmd)
      = Except.ok ((fs ++ [cmd]).map Cell.str ++ List.replicate k1 Cell.uninit) := by
    rw [hst]; simp
  rw [hst2]
  simp only [hsz, List.length_append, List.length_singleton]

theorem add_cmds_append (fields : List Str) : ∀ (ctx : context) (fs : List Str) (k : Nat)
    (rest : Block),
    (ctx.state = State.if_state ∨ ctx.state = State.then_state ∨ ctx.state = State.else_state) →
    (block_by_state ctx).getD (init_list (fs.length + k))
      = fs.map Cell.str ++ List.replicate k Cell.uninit →
    1 ≤ fs.length + k → (∀ f ∈ fields, f.length < sizeof_ptr) → fields ≠ [] →
    ∃ k1, add_cmds (fields.map Cell.str ++ Cell.null :: rest) ctx (fs.length + k) fs.length
      = Except.ok (set_block_by_state ctx
          (some ((fs ++ fields).map Cell.str ++ List.replicate k1 Cell.uninit)),
          (fs ++ fields).length + k1, (fs ++ fields).length) := by
  induction fields with
  | nil => intro ctx fs k rest _ _ _ _ h; exact absurd rfl h
  | cons f fields ih =>
    intro ctx fs k rest hstate harr h1 hshort _
    obtain ⟨k1, hadd⟩ := add_cmd_append ctx f fs k harr h1 (hshort f (List.mem_cons_self _ _))
    simp only [List.map_cons, List.cons_append, add_cmds]
    rw [hadd]
    simp only [List.append_eq]
    by_cases hf : fields = []
    · subst hf
      refine ⟨k1, ?_⟩
      simp [add_cmds]
    · have hstate2 := hstate
      rw [← state_set_block ctx
        (some ((fs ++ [f]).map Cell.str ++ List.replicate k1 Cell.uninit))] at hstate2
      obtain ⟨k2, h2⟩ := ih (set_block_by_state ctx
          (some ((fs ++ [f]).map Cell.str ++ List.replicate k1 Cell.uninit))) (fs ++ [f]) k1 rest
        hstate2 (by rw [block_by_state_set _ _ hstate]; rfl)
        (by simp only [List.length_append, List.length_singleton]; omega)
        (fun g hg => hshort g (List.mem_cons_of_mem _ hg)) hf
      refine ⟨k2, ?_⟩
      rw [h2, set_block_set_block]
      simp [List.append_assoc]

/-! ### Running a block -/

theorem argv_of_terminated (fs : List Str) (rest : Block) :
    argv_of (fs.map Cell.str ++ Cell.null :: rest) = fs := by
  induction fs with
  | nil => rfl
  | cons f fs ih => simp [argv_of, ih]

theorem launched_append (w1 w2 : World) : launched (w1 ++ w2) = launched w1 ++ launched w2 := by
  induction w1 with
  | nil => rfl
  | cons e w1 ih => cases e <;> simp [launched, ih]

theorem launched_sequential : ∀ (cmds : List Str) (sts : List Int), sts.length = cmds.length →
    launched (sequential cmds sts) = cmds.map (fun c => split_drop_empty c ' ') := by
  intro cmds
  induction cmds with
  | nil => intro sts _; cases sts <;> rfl
  | cons c cs ih =>
    intro sts h
    cases sts with
    | nil => simp at h
    | cons st sts =>
      simp only [sequential, launched, List.map_cons]
      rw [ih sts (by simpa using h)]

/-- With `fork` and `wait` succeeding, `exec_block` runs the strings of a terminated block one
after the other, whatever status words the children report. -/
theorem exec_block_loop_sequential (sys : Sys) (hfork : ∀ w, sys.fork w = true)
    (hwait : ∀ w, ∃ st, sys.wait w = some st) :
    ∀ (fs : List Str) (rest : Block) (status : Option Int) (w : World),
    ∃ sts, sts.length = fs.length ∧ (∀ st ∈ sts, ∃ w1, sys.wait w1 = some st) ∧
      exec_block_loop sys (fs.map Cell.str ++ Cell.null :: rest) status w
        = Except.ok (0, last_status status sts, w ++ sequential fs sts) := by
  intro fs
  induction fs with
  | nil =>
    intro rest status w
    refine ⟨[], rfl, by simp, ?_⟩
    cases status <;> simp [exec_block_loop, sequential, last_status]
  | cons f fs ih =>
    intro rest status w
    obtain ⟨arest, hl⟩ := list_from_line_ok f ' '
    obtain ⟨st, hst⟩ := hwait (w ++ [Event.fork (split_drop_empty f ' ') (-1) (-1)])
    obtain ⟨sts, hlen, hor, hrec⟩ := ih rest (status.map (fun _ => st))
      (w ++ [Event.fork (split_drop_empty f ' ') (-1) (-1)] ++ [Event.wait st])
    refine ⟨st :: sts, by simp [hlen], ?_, ?_⟩
    · intro x hx
      rcases List.mem_cons.mp hx with h | h
      · exact ⟨_, h ▸ hst⟩
      · exact hor x h
    simp only [List.map_cons, List.cons_append, exec_block_loop, List.append_eq]
    rw [hl]
    simp only [execute, hfork, if_true, argv_of_terminated, hst]
    rw [if_neg (by decide), hrec]
    cases status <;>
      simp [last_status, sequential, List.getLast?_cons, List.append_assoc]

/-! ### Dispatch of a line in `main` -/

theorem is_control_cmd_cases (line : Str) (h : is_control_cmd line = true) :
    line = "if".toList ∨ line = "then".toList ∨ line = "else".toList ∨ line = "fi".toList := by
  simpa [is_control_cmd, or_assoc] using h

theorem main_body_control (sys : Sys) (line : Str) (s : Shell) (h : is_control_cmd line = true) :
    main_body sys (line ++ ['\n']) s = main_control sys line s := by
  rcases is_control_cmd_cases line h with h | h | h | h <;> subst h <;> rfl

theorem main_body_pipeline (sys : Sys) (line : Str) (s : Shell) (h : is_pipeline line = true)
    (hexit : (line ++ ['\n']).take 4 ≠ "exit".toList) :
    main_body sys (line ++ ['\n']) s =
      match process_pipeline sys line s.world with
      | Except.error (f, w) => Step.fault f w
      | Except.ok (r, w) =>
        if r = -1 then main_error { s with world := w } else Step.next { s with world := w } := by
  have hne : line ≠ [] := by
    intro h0; subst h0; simp [is_pipeline] at h
  have h1 : line ++ ['\n'] ≠ ['\n'] := by
    intro h0
    have := congrArg List.length h0
    simp at this
    exact hne this
  simp only [main_body, h1, hexit, if_false, trim_suffix, List.dropLast_concat, h, if_true]
  simp [h]

theorem main_body_plain (sys : Sys) (line : Str) (s : Shell) (hne : line ≠ [])
    (hpipe : is_pipeline line = false) (hctl : is_control_cmd line = false)
    (hexit : (line ++ ['\n']).take 4 ≠ "exit".toList) :
    main_body sys (line ++ ['\n']) s =
      match list_from_line line [';'] with
      | Except.error f => Step.fault f s.world
      | Except.ok (cmdline, _) =>
        if s.ctx.state = State.def_state then
          match exec_block sys (some cmdline) none s.world with
          | Except.error (f, w) => Step.fault f w
          | Except.ok (r, _, w) =>
            if r = -1 then main_error { s with world := w }
            else Step.next { s with world := w }
        else
          match add_cmds cmdline s.ctx s.sz s.idx with
          | Except.error f => Step.fault f s.world
          | Except.ok (ctx1, sz1, idx1) =>
            Step.next { ctx := ctx1, idx := idx1, sz := sz1, world := s.world } := by
  have h1 : line ++ ['\n'] ≠ ['\n'] := by
    intro h0
    have := congrArg List.length h0
    simp at this
    exact hne this
  simp only [main_body, h1, hexit, if_false, trim_suffix, List.dropLast_concat, hpipe, hctl]
  simp [hpipe, hctl]

/-! ### A pipeline whose system calls all succeed -/

theorem build_commands_argv (stages : List Str) (rest : Block) :
    ∃ cmds, build_commands (stages.map Cell.str ++ Cell.null :: rest) = Except.ok cmds
      ∧ cmds.map (fun c => argv_of c.args) = stages.map (fun st => split_drop_empty st ' ')
      ∧ cmds.length = stages.length := by
  induction stages with
  | nil => exact ⟨[], rfl, rfl, rfl⟩
  | cons st stages ih =>
    obtain ⟨cmds, h1, h2, h3⟩ := ih
    obtain ⟨arest, hl⟩ := list_from_line_ok st ' '
    refine ⟨{ args := (split_drop_empty st ' ').map Cell.str ++ Cell.null :: arest,
              fd_in := -1, fd_out := -1 } :: cmds, ?_, ?_, ?_⟩
    · simp only [List.map_cons, List.cons_append, build_commands, List.append_eq]
      rw [hl]
      simp only
      rw [h1]
    · simp [argv_of_terminated, h2]
    · simp [h3]

theorem update_command_argv (f : command → command) (hf : ∀ c, (f c).args = c.args) :
    ∀ (i : Nat) (cmds : List command),
      (update_command f i cmds).map (fun c => argv_of c.args)
        = cmds.map (fun c => argv_of c.args) := by
  intro i cmds
  induction cmds generalizing i with
  | nil => cases i <;> rfl
  | cons c cs ih =>
    cases i with
    | zero => simp [update_command, hf]
    | succ i => simp [update_command, ih]

theorem connect_commands_ok (sys : Sys) (hpipe : ∀ w, ∃ fds, sys.pipe w = some fds) :
    ∀ (n i : Nat) (cmds : List command) (w : World),
    ∃ cmds1 w1, connect_commands sys n i cmds w = (true, cmds1, w1)
      ∧ cmds1.map (fun c => argv_of c.args) = cmds.map (fun c => argv_of c.args)
      ∧ launched w1 = launched w := by
  intro n
  induction n with
  | zero => intro i cmds w; exact ⟨cmds, w, rfl, rfl, rfl⟩
  | succ n ih =>
    intro i cmds w
    obtain ⟨⟨rd, wr⟩, hp⟩ := hpipe w
    obtain ⟨cmds1, w1, h1, h2, h3⟩ := ih (i + 1)
      (update_command (fun c => { c with fd_in := rd }) (i + 1)
        (update_command (fun c => { c with fd_out := wr }) i cmds))
      (w ++ [Event.pipe rd wr])
    refine ⟨cmds1, w1, ?_, ?_, ?_⟩
    · simp only [connect_commands, hp]
      exact h1
    · rw [h2, update_command_argv (fun c => { c with fd_in := rd }) (fun _ => rfl),
        update_command_argv (fun c => { c with fd_out := wr }) (fun _ => rfl)]
    · rw [h3, launched_append]; simp [launched]

theorem free_command_ok (sys : Sys) (hclose : ∀ w fd, sys.close w fd = true) (c : command)
    (w : World) :
    ∃ w1, free_command sys c w = (0, c, w1) ∧ launched w1 = launched w := by
  by_cases hin : c.fd_in = -1 <;> by_cases hout : c.fd_out = -1 <;>
    simp [free_command, hclose, hin, hout, launched_append, launched]

theorem run_pipeline_loop_ok (sys : Sys) (hfork : ∀ w, sys.fork w = true)
    (hclose : ∀ w fd, sys.close w fd = true) :
    ∀ (cmds done : List command) (n : Nat) (w : World),
    ∃ done1 w1, run_pipeline_loop sys cmds done n w = (((n + cmds.length : Nat) : Int), done1, w1)
      ∧ launched w1 = launched w ++ cmds.map (fun c => argv_of c.args) := by
  intro cmds
  induction cmds with
  | nil => intro done n w; exact ⟨done, w, by simp [run_pipeline_loop], by simp⟩
  | cons c cs ih =>
    intro done n w
    obtain ⟨w1, hfree, hl1⟩ := free_command_ok sys hclose c
      (w ++ [Event.fork (argv_of c.args) c.fd_in c.fd_out])
    obtain ⟨done1, w2, hrec, hl2⟩ := ih (done ++ [c]) (n + 1) w1
    refine ⟨done1, w2, ?_, ?_⟩
    · simp only [run_pipeline_loop, hfork, if_true, hfree]
      rw [if_neg (by decide), hrec]
      simp only [List.length_cons]
      congr 2
      omega
    · rw [hl2, hl1, launched_append]
      simp [launched]

theorem wait_pipeline_ok (sys : Sys) (hwait : ∀ w, ∃ st, sys.wait w = some st) :
    ∀ (n : Nat) (w : World),
    ∃ w1, wait_pipeline sys n w = (true, -1, w1) ∧ launched w1 = launched w := by
  intro n
  induction n with
  | zero => intro w; exact ⟨w, rfl, rfl⟩
  | succ n ih =>
    intro w
    obtain ⟨st, hst⟩ := hwait w
    obtain ⟨w1, h1, h2⟩ := ih (w ++ [Event.wait st])
    refine ⟨w1, ?_, ?_⟩
    · simp only [wait_pipeline, hst]; exact h1
    · rw [h2, launched_append]; simp [launched]

/-- With every system call succeeding, `process_pipeline` launches the stages of the line, in
order, each with the words of its `|`-separated field, and returns 0. -/
theorem process_pipeline_ok (sys : Sys) (hfork : ∀ w, sys.fork w = true)
    (hwait : ∀ w, ∃ st, sys.wait w = some st) (hpipe : ∀ w, ∃ fds, sys.pipe w = some fds)
    (hclose : ∀ w fd, sys.close w fd = true) (line : Str) (w : World) :
    ∃ w1, process_pipeline sys line w = Except.ok (0, w1)
      ∧ launched w1 = launched w
          ++ (split_drop_empty line '|').map (fun st => split_drop_empty st ' ') := by
  obtain ⟨rest, hl⟩ := list_from_line_ok line '|'
  obtain ⟨cmds, hb, hargv, hlen⟩ := build_commands_argv (split_drop_empty line '|') rest
  obtain ⟨cmds1, w1, hc, hargv1, hw1⟩ := connect_commands_ok sys hpipe
    ((split_drop_empty line '|').length - 1) 0 cmds w
  obtain ⟨done, w2, hr, hw2⟩ := run_pipeline_loop_ok sys hfork hclose cmds1 [] 0 w1
  obtain ⟨w3, hwp, hw3⟩ := wait_pipeline_ok sys hwait cmds1.length w2
  refine ⟨w3, ?_, ?_⟩
  · simp only [process_pipeline, hl, hb, hc, run_pipeline, hr]
    have : ¬ (((0 + cmds1.length : Nat) : Int) = -1) := by omega
    rw [if_neg this]
    simp only [Nat.zero_add, Int.toNat_ofNat, hwp]
  · rw [hw3, hw2, hw1, hargv1, hargv]

/-! ### Closing a statement -/

theorem free_block_terminated (fs : List Str) (rest : Block) :
    free_block (fs.map Cell.str ++ Cell.null :: rest) = Except.ok () := by
  induction fs with
  | nil => rfl
  | cons f fs ih => simpa [free_block] using ih

theorem set_context_state_fi (ctx : context) :
    set_context_state "fi".toList ctx = { ctx with state := State.fi_state } := by
  rfl

theorem main_error_not_next (s s1 : Shell) : main_error s ≠ Step.next s1 := by
  unfold main_error
  cases free_context s.ctx <;> simp

theorem free_context_eq (ctx c : context) (h : free_context ctx = Except.ok c) :
    c = empty_context := by
  unfold free_context at h
  cases h1 : free_block_opt ctx.if_block <;> rw [h1] at h <;> simp at h
  cases h2 : free_block_opt ctx.else_block <;> rw [h2] at h <;> simp at h
  cases h3 : free_block_opt ctx.then_block <;> rw [h3] at h <;> simp at h
  exact h.symm

/-- When `main_control` hands the loop on after a keyword met outside the default state, the
counters are back at their first values, and after `fi` the context is the empty one. -/
theorem main_control_next (sys : Sys) (line : Str) (s s1 : Shell)
    (hstate : s.ctx.state ≠ State.def_state)
    (hnext : main_control sys line s = Step.next s1) :
    s1.idx = 0 ∧ s1.sz = 1 ∧ (line = "fi".toList → s1.ctx = empty_context) := by
  unfold main_control at hnext
  by_cases hv : is_valid_cmd s.ctx line = 0
  · rw [if_pos hv] at hnext
    exact absurd hnext (main_error_not_next _ _)
  · rw [if_neg hv, if_neg hstate] at hnext
    cases hadd : add_eob s.ctx s.idx s.sz with
    | error f => rw [hadd] at hnext; simp at hnext
    | ok p =>
      obtain ⟨r, ctx1⟩ := p
      rw [hadd] at hnext
      simp only at hnext
      by_cases hfi : (set_context_state line ctx1).state = State.fi_state
      · rw [if_pos hfi] at hnext
        cases hexec : exec_context sys (set_context_state line ctx1) s.world with
        | error e => obtain ⟨f, w⟩ := e; rw [hexec] at hnext; simp at hnext
        | ok q =>
          obtain ⟨r1, w⟩ := q
          rw [hexec] at hnext
          simp only at hnext
          by_cases hr : r1 = -1
          · rw [if_pos hr] at hnext
            exact absurd hnext (main_error_not_next _ _)
          · rw [if_neg hr] at hnext
            cases hfree : free_context (set_context_state line ctx1) with
            | error f => rw [hfree] at hnext; simp at hnext
            | ok c =>
              rw [hfree] at hnext
              simp only [Step.next.injEq] at hnext
              subst hnext
              exact ⟨rfl, rfl, fun _ => free_context_eq _ _ hfree⟩
      · rw [if_neg hfi] at hnext
        simp only [Step.next.injEq] at hnext
        subst hnext
        refine ⟨rfl, rfl, fun h => ?_⟩
        subst h
        exact absurd (by rfl) hfi

theorem add_eob_terminates (ctx : context) (fs : List Str) (k : Nat)
    (hblk : block_by_state ctx = some (fs.map Cell.str ++ List.replicate k Cell.uninit)) :
    add_eob ctx fs.length (fs.length + k)
      = Except.ok (0, set_block_by_state ctx
          (some (fs.map Cell.str ++ Cell.null :: List.replicate (k - 1) Cell.uninit))) := by
  have ht := term_store (fs.map Cell.str) k
  simp only [List.length_map] at ht
  unfold add_eob
  rw [hblk]
  by_cases hk : fs.length = fs.length + k
  · simp only [if_pos hk, Option.getD_some] at ht ⊢
    simp only [Nat.add_assoc] at ht ⊢
    rw [ht]
  · simp only [if_neg hk] at ht ⊢
    rw [ht]

/-- Running a context whose blocks are terminated, when every child exits normally: the
if-block, then the then-block. -/
theorem exec_context_then (sys : Sys) (hfork : ∀ w, sys.fork w = true)
    (hwait : ∀ w, ∃ st, sys.wait w = some st)
    (hexited : ∀ w st, sys.wait w = some st → WIFEXITED st = true)
    (ctx : context) (cf tf : List Str) (r1 r2 : Block) (w : World)
    (hif : ctx.if_block = some (cf.map Cell.str ++ Cell.null :: r1))
    (hthen : ctx.then_block = some (tf.map Cell.str ++ Cell.null :: r2)) :
    ∃ ss1 ss2, ss1.length = cf.length ∧ ss2.length = tf.length ∧
      exec_context sys ctx w = Except.ok (0, w ++ sequential cf ss1 ++ sequential tf ss2) := by
  obtain ⟨ss1, hl1, hor1, he1⟩ := exec_block_loop_sequential sys hfork hwait cf r1 (some 0) w
  obtain ⟨ss2, hl2, _, he2⟩ := exec_block_loop_sequential sys hfork hwait tf r2
    (last_status (some 0) ss1) (w ++ sequential cf ss1)
  refine ⟨ss1, ss2, hl1, hl2, ?_⟩
  have hx : WIFEXITED ((last_status (some 0) ss1).getD 0) = true := by
    simp only [last_status, Option.map_some', Option.getD_some]
    cases hlast : ss1.getLast? with
    | none => rfl
    | some st =>
      obtain ⟨w1, hw1⟩ := hor1 st (List.mem_of_getLast?_eq_some hlast)
      simpa using hexited w1 st hw1
  simp only [exec_context, hif, hthen, exec_block, he1]
  rw [if_neg (by decide), if_pos hx, he2]
  simp

theorem is_valid_cmd_fi (ctx : context) : is_valid_cmd ctx "fi".toList = -1 := by
  rfl

/-- The keyword `fi` in the collecting-then state, with a terminated if-block and a then-block
that holds at least the array: when every child exits normally, the if-block and the
then-block are run and the loop goes on from a fresh context. -/
theorem fi_in_then_state (sys : Sys) (hfork : ∀ w, sys.fork w = true)
    (hwait : ∀ w, ∃ st, sys.wait w = some st)
    (hexited : ∀ w st, sys.wait w = some st → WIFEXITED st = true)
    (s : Shell) (cf tf : List Str) (r1 : Block) (k : Nat)
    (hstate : s.ctx.state = State.then_state)
    (hif : s.ctx.if_block = some (cf.map Cell.str ++ Cell.null :: r1))
    (hthen : s.ctx.then_block = some (tf.map Cell.str ++ List.replicate k Cell.uninit))
    (helse : s.ctx.else_block = none)
    (hidx : s.idx = tf.length) (hsz : s.sz = tf.length + k) :
    ∃ ss1 ss2, ss1.length = cf.length ∧ ss2.length = tf.length ∧
      main_body sys (entered "fi") s
        = Step.next { ctx := empty_context, idx := 0, sz := 1,
                      world := s.world ++ sequential cf ss1 ++ sequential tf ss2 } := by
  have hblk : block_by_state s.ctx
      = some (tf.map Cell.str ++ List.replicate k Cell.uninit) := by
    simp [block_by_state, hstate, hthen]
  have hadd := add_eob_terminates s.ctx tf k hblk
  rw [← hsz, ← hidx] at hadd
  have hset : ∀ b, set_block_by_state s.ctx b = { s.ctx with then_block := b } := by
    intro b; simp [set_block_by_state, hstate]
  obtain ⟨ss1, ss2, hl1, hl2, hexec⟩ := exec_context_then sys hfork hwait hexited
    { s.ctx with
      then_block := some (tf.map Cell.str ++ Cell.null :: List.replicate (k - 1) Cell.uninit)
      state := State.fi_state }
    cf tf r1 (List.replicate (k - 1) Cell.uninit) s.world hif rfl
  refine ⟨ss1, ss2, hl1, hl2, ?_⟩
  have hentered : entered "fi" = "fi".toList ++ ['\n'] := rfl
  rw [hentered, main_body_control sys _ s (by decide)]
  unfold main_control
  rw [is_valid_cmd_fi, if_neg (by decide), if_neg (by rw [hstate]; decide), hadd]
  simp only [hset, set_context_state_fi, if_true, hexec]
  rw [if_neg (by decide)]
  simp [free_context, free_block_opt, hif, helse, free_block_terminated]

/-- In the default state, a line that has no `|`, is no keyword and does not begin with `exit`
launches its `;`-separated fields in order, each with the words of the field as arguments and
each waited for before the next is created, whatever status words the children report; the
loop then goes on with the context as it was.  (`fork` and `wait` are taken to succeed.) -/
theorem default_line_runs_fields (sys : Sys) (hfork : ∀ w, sys.fork w = true)
    (hwait : ∀ w, ∃ st, sys.wait w = some st) (s : Shell) (line : Str)
    (hstate : s.ctx.state = State.def_state)
    (hpipe : is_pipeline line = false) (hctl : is_control_cmd line = false)
    (hexit : (line ++ ['\n']).take 4 ≠ "exit".toList) :
    ∃ sts, sts.length = (split_drop_empty line ';').length
      ∧ main_body sys (line ++ ['\n']) s
        = Step.next { s with world := s.world ++ sequential (split_drop_empty line ';') sts }
      ∧ launched (sequential (split_drop_empty line ';') sts)
        = (split_drop_empty line ';').map (fun c => split_drop_empty c ' ') := by
  by_cases hne : line = []
  · subst hne
    refine ⟨[], by simp [split_drop_empty_nil], ?_, by simp [split_drop_empty_nil, sequential, launched]⟩
    simp [main_body, split_drop_empty_nil, sequential]
  · obtain ⟨rest, hl⟩ := list_from_line_ok line ';'
    obtain ⟨sts, hlen, _, hexec⟩ := exec_block_loop_sequential sys hfork hwait
      (split_drop_empty line ';') rest none s.world
    refine ⟨sts, hlen, ?_, launched_sequential _ _ hlen⟩
    rw [main_body_plain sys line s hne hpipe hctl hexit, hl]
    simp only [if_pos hstate, exec_block, hexec]
    rw [if_neg (by decide)]

/-- C2. Evaluation at the failing input: with `false` ending with exit status 1, the statement
if / false / then / echo A / else / echo B / fi runs `false` and then `echo A`; `echo B` is
not run, because the status word 256 of a child that exited with status 1 passes the test
`WIFEXITED`. -/
theorem exec_context_then_after_false :
    run_lines sample_sys
        (["if", "false", "then", "echo A", "else", "echo B", "fi"].map entered) init_shell
      = Step.next
          { ctx := empty_context
            idx := 0
            sz := 1
            world := [Event.fork ["false".toList] (-1) (-1), Event.wait 256,
              Event.fork ["echo".toList, "A".toList] (-1) (-1), Event.wait 0] }
    ∧ WIFEXITED 256 = true := by
  decide

/-- A then-line longer than the buffer of `sizeof(char*)` bytes that `add_cmd` allocates for its
copy: the `strcpy` of `add_cmd` writes past that buffer when the line is read, before any
command of the statement has run. -/
theorem add_cmd_overflow_in_statement :
    run_lines sample_sys
        (["if", "true", "then", "echo 0123456789012345678901234567890123456789", "fi"].map
          entered) init_shell
      = Step.fault Fault.buffer_overflow [] := by
  decide

/-- C4 (counterexample). In the default state the line `exitfoo`, which has no `|` and is no
control keyword, launches no command and ends the session. -/
theorem exit_prefix_ends_session :
    is_control_cmd "exitfoo".toList = false
    ∧ is_pipeline "exitfoo".toList = false
    ∧ main_body sample_sys (entered "exitfoo") init_shell = Step.exit_success init_shell := by
  decide

/-- C5. Evaluation at the failing input: after if / a / then / b the keyword `then` is
rejected and nothing is run, but the release of the context walks the then-block, which has
no `NULL` yet, and loads from outside the array. -/
theorem rejected_then_frees_open_block :
    (∃ s, run_lines sample_sys (["if", "a", "then", "b"].map entered) init_shell = Step.next s
      ∧ s.ctx.state = State.then_state
      ∧ is_valid_cmd s.ctx "then".toList = 0
      ∧ main_body sample_sys (entered "then") s = Step.fault Fault.invalid_access [])
    ∧ free_block [Cell.str "b".toList] = Except.error Fault.invalid_access := by
  refine ⟨⟨_, rfl, ?_⟩, ?_⟩ <;> decide

/-- C6. Evaluation at the failing input: after if / true / then, with no then-block yet,
`is_valid_cmd` accepts `else` (it tests the if-block), and `add_eob` then stores through the
null then-block. -/
theorem else_accepted_without_then_block :
    (∃ s, run_lines sample_sys (["if", "true", "then"].map entered) init_shell = Step.next s
      ∧ s.ctx.state = State.then_state
      ∧ s.ctx.then_block = none
      ∧ is_valid_cmd s.ctx "else".toList = 1
      ∧ main_body sample_sys (entered "else") s = Step.fault Fault.invalid_access []) := by
  refine ⟨_, rfl, ?_⟩; decide

/-- C7. Evaluation at the failing inputs: `is_valid_cmd` answers `-1`, which is not zero, for
`fi` in every context; `fi` in the default state is accepted and leaves the context in
`fi_state`, and `fi` in the collecting-if state runs the if-block before it loads through the
null then-block. -/
theorem fi_never_rejected :
    (∀ ctx, is_valid_cmd ctx "fi".toList = -1)
    ∧ main_body sample_sys (entered "fi") init_shell
        = Step.next { init_shell with ctx := { empty_context with state := State.fi_state } }
    ∧ run_lines sample_sys (["if", "true", "fi"].map entered) init_shell
        = Step.fault Fault.invalid_access [Event.fork ["true".toList] (-1) (-1), Event.wait 0] := by
  refine ⟨fun ctx => rfl, by decide, by decide⟩

/-- C4 (amended). In the default state, with `fork` and `wait` succeeding, a line that has no
`|` and is none of the keywords `if`, `then`, `else`, `fi` ends the session when it begins
with `exit`; otherwise its `;`-separated fields are launched in order, each with the words of
the field as arguments and each waited for before the next is created, whatever status words
the children report, and the loop goes on with the context as it was. -/
theorem default_line (sys : Sys) (hfork : ∀ w, sys.fork w = true)
    (hwait : ∀ w, ∃ st, sys.wait w = some st) (s : Shell) (line : Str)
    (hstate : s.ctx.state = State.def_state)
    (hpipe : is_pipeline line = false) (hctl : is_control_cmd line = false) :
    if (line ++ ['\n']).take 4 = "exit".toList then
      main_body sys (line ++ ['\n']) s = Step.exit_success s
    else
      ∃ sts, sts.length = (split_drop_empty line ';').length
        ∧ main_body sys (line ++ ['\n']) s
          = Step.next { s with world := s.world ++ sequential (split_drop_empty line ';') sts }
        ∧ launched (sequential (split_drop_empty line ';') sts)
          = (split_drop_empty line ';').map (fun c => split_drop_empty c ' ') := by
  by_cases hexit : (line ++ ['\n']).take 4 = "exit".toList
  · rw [if_pos hexit]
    have h1 : line ++ ['\n'] ≠ ['\n'] := by
      intro h0
      rw [h0] at hexit
      exact absurd hexit (by decide)
    simp only [main_body, h1, hexit, if_false, if_true]
  · rw [if_neg hexit]
    exact default_line_runs_fields sys hfork hwait s line hstate hpipe hctl hexit

/-- The theorem `default_line` at the line `a b;;c` entered first. -/
theorem default_line_witness :
    ∃ sts, sts.length = 2
      ∧ main_body sample_sys ("a b;;c".toList ++ ['\n']) init_shell
        = Step.next { init_shell with
            world := init_shell.world ++ sequential ["a b".toList, "c".toList] sts }
      ∧ launched (sequential ["a b".toList, "c".toList] sts)
        = [["a".toList, "b".toList], ["c".toList]] := by
  have h := default_line sample_sys (fun _ => rfl) (fun _ => ⟨_, rfl⟩) init_shell
    "a b;;c".toList (by decide) (by decide) (by decide)
  rw [if_neg (by decide)] at h
  have hf : split_drop_empty "a b;;c".toList ';' = ["a b".toList, "c".toList] := by decide
  rw [hf] at h
  obtain ⟨sts, h1, h2, h3⟩ := h
  exact ⟨sts, h1, h2, by rw [h3]; decide⟩

/-! ### Syntax errors -/

theorem main_error_cases (s : Shell) :
    main_error s = Step.exit_failure { s with ctx := empty_context }
      ∨ ∃ f, main_error s = Step.fault f s.world ∧ free_context s.ctx = Except.error f := by
  unfold main_error
  cases h : free_context s.ctx with
  | error f => exact Or.inr ⟨f, rfl, rfl⟩
  | ok c => rw [free_context_eq _ _ h]; exact Or.inl rfl

theorem main_body_rejected (sys : Sys) (s : Shell) (line : Str)
    (hctl : is_control_cmd line = true) (hrej : is_valid_cmd s.ctx line = 0) :
    main_body sys (line ++ ['\n']) s = main_error s := by
  rw [main_body_control sys line s hctl]
  unfold main_control
  rw [if_pos hrej]

/-- The keywords `if`, `then`, `else` are rejected in every state from which the transition
table has no move for them. -/
theorem is_valid_cmd_undefined (ctx : context) :
    (ctx.state ≠ State.def_state → is_valid_cmd ctx "if".toList = 0)
    ∧ (ctx.state ≠ State.if_state → is_valid_cmd ctx "then".toList = 0)
    ∧ (ctx.state ≠ State.then_state → is_valid_cmd ctx "else".toList = 0) := by
  refine ⟨fun h => ?_, fun h => ?_, fun h => ?_⟩ <;> simp [is_valid_cmd, h]

/-- The keyword `then` outside the collecting-if state, or with no if-block: it is rejected and
no system call is made; the process leaves with the empty context, unless the release of the
context faults. -/
theorem then_rejected (sys : Sys) (s : Shell)
    (h : s.ctx.state ≠ State.if_state ∨ s.ctx.if_block = none) :
    is_valid_cmd s.ctx "then".toList = 0
    ∧ (main_body sys (entered "then") s = Step.exit_failure { s with ctx := empty_context }
        ∨ ∃ f, main_body sys (entered "then") s = Step.fault f s.world
            ∧ free_context s.ctx = Except.error f) := by
  have hv : is_valid_cmd s.ctx "then".toList = 0 := by
    rcases h with h | h <;> simp [is_valid_cmd, h]
  refine ⟨hv, ?_⟩
  have hentered : entered "then" = "then".toList ++ ['\n'] := rfl
  rw [hentered, main_body_rejected sys s _ (by decide) hv]
  exact main_error_cases s

/-- C8 (counterexample). The keyword `else` entered right after `if` is rejected, and the
loop does not read another line: the process leaves with `exit(EXIT_FAILURE)`. -/
theorem rejected_else_exits_with_failure :
    is_valid_cmd { empty_context with state := State.if_state } "else".toList = 0
    ∧ run_lines sample_sys (["if", "else"].map entered) init_shell
        = Step.exit_failure init_shell
    ∧ ¬ ∃ s1, run_lines sample_sys (["if", "else"].map entered) init_shell = Step.next s1 := by
  refine ⟨by decide, by decide, ?_⟩
  rintro ⟨s1, h⟩
  have h2 : run_lines sample_sys (["if", "else"].map entered) init_shell
      = Step.exit_failure init_shell := by decide
  rw [h2] at h
  exact Step.noConfusion h

/-- C8 (amended). A syntax error ends the session: for every context and every control keyword
that `is_valid_cmd` rejects in it, the loop of `main` does not go on to the next line and does
not leave with success; no system call is made, and the process leaves with
`exit(EXIT_FAILURE)` and the empty context, unless the release of the context faults. -/
theorem rejected_keyword_ends_session (sys : Sys) (s : Shell) (line : Str)
    (hctl : is_control_cmd line = true) (hrej : is_valid_cmd s.ctx line = 0) :
    (∀ s1, main_body sys (line ++ ['\n']) s ≠ Step.next s1)
    ∧ (∀ s1, main_body sys (line ++ ['\n']) s ≠ Step.exit_success s1)
    ∧ (main_body sys (line ++ ['\n']) s).world = s.world
    ∧ (main_body sys (line ++ ['\n']) s = Step.exit_failure { s with ctx := empty_context }
        ∨ ∃ f, main_body sys (line ++ ['\n']) s = Step.fault f s.world
            ∧ free_context s.ctx = Except.error f) := by
  rw [main_body_rejected sys s line hctl hrej]
  rcases main_error_cases s with h | ⟨f, h, hf⟩
  · rw [h]
    exact ⟨fun s1 => by simp, fun s1 => by simp, rfl, Or.inl rfl⟩
  · rw [h]
    exact ⟨fun s1 => by simp, fun s1 => by simp, rfl, Or.inr ⟨f, rfl, hf⟩⟩

/-- The theorem `rejected_keyword_ends_session` at `else` entered right after `if`. -/
theorem rejected_keyword_ends_session_witness :
    (is_control_cmd "else".toList = true
      ∧ is_valid_cmd { empty_context with state := State.if_state } "else".toList = 0)
    ∧ ∀ s1, main_body sample_sys ("else".toList ++ ['\n'])
        { init_shell with ctx := { empty_context with state := State.if_state } }
          ≠ Step.next s1 :=
  ⟨⟨by decide, by decide⟩,
    (rejected_keyword_ends_session sample_sys
      { init_shell with ctx := { empty_context with state := State.if_state } }
      "else".toList (by decide) (by decide)).1⟩

/-! ### The end of a statement -/

/-- C9. Evaluation at the failing input: the keyword `fi` entered in the default state is
accepted and the loop goes on, with the context not the default one (its state is `fi_state`);
a line of commands read next is neither run nor kept in a block, and the counters move. -/
theorem fi_in_default_state_closes :
    (∃ s1, main_body sample_sys (entered "fi") init_shell = Step.next s1
      ∧ s1.ctx.state = State.fi_state ∧ s1.ctx ≠ empty_context)
    ∧ run_lines sample_sys (["fi", "ls"].map entered) init_shell
        = Step.next
            { ctx := { empty_context with state := State.fi_state }
              idx := 1
              sz := 1
              world := [] } := by
  refine ⟨⟨_, rfl, ?_⟩, ?_⟩ <;> decide

/-- For every context that is not in the default state, the keyword `fi` ends in one of three
ways: the loop goes on with the empty context and `idx = 0`, `sz = 1`; or the process leaves
with failure; or the step faults. A control keyword that is rejected never lets the loop go
on: the process leaves with the empty context, or the release of the context faults. -/
theorem fi_leaves_fresh_context (sys : Sys) (s : Shell)
    (hstate : s.ctx.state ≠ State.def_state) :
    ((∃ w, main_body sys (entered "fi") s
          = Step.next { ctx := empty_context, idx := 0, sz := 1, world := w })
      ∨ (∃ s1, main_body sys (entered "fi") s = Step.exit_failure s1)
      ∨ (∃ f w, main_body sys (entered "fi") s = Step.fault f w))
    ∧ (∀ line, is_control_cmd line = true → is_valid_cmd s.ctx line = 0 →
        main_body sys (line ++ ['\n']) s = Step.exit_failure { s with ctx := empty_context }
          ∨ ∃ f, main_body sys (line ++ ['\n']) s = Step.fault f s.world) := by
  constructor
  · have hentered : entered "fi" = "fi".toList ++ ['\n'] := rfl
    rw [hentered, main_body_control sys _ s (by decide)]
    cases hres : main_control sys "fi".toList s with
    | next s1 =>
      obtain ⟨h1, h2, h3⟩ := main_control_next sys _ s s1 hstate hres
      refine Or.inl ⟨s1.world, ?_⟩
      rw [← h3 rfl, ← h1, ← h2]
    | exit_success s1 =>
      exfalso
      unfold main_control at hres
      rw [is_valid_cmd_fi, if_neg (by decide), if_neg hstate] at hres
      cases hadd : add_eob s.ctx s.idx s.sz with
      | error f => rw [hadd] at hres; simp at hres
      | ok p =>
        rw [hadd] at hres
        simp only [set_context_state_fi, if_true] at hres
        cases hexec : exec_context sys { p.2 with state := State.fi_state } s.world with
        | error e => rw [hexec] at hres; simp at hres
        | ok q =>
          rw [hexec] at hres
          simp only at hres
          by_cases hr : q.1 = -1
          · rw [if_pos hr] at hres
            rcases main_error_cases
              { s with ctx := { p.2 with state := State.fi_state }, world := q.2 } with h | ⟨f, h, _⟩
            · rw [h] at hres; simp at hres
            · rw [h] at hres; simp at hres
          · rw [if_neg hr] at hres
            cases hfree : free_context { p.2 with state := State.fi_state } with
            | error f => rw [hfree] at hres; simp at hres
            | ok c => rw [hfree] at hres; simp at hres
    | exit_failure s1 => exact Or.inr (Or.inl ⟨s1, rfl⟩)
    | fault f w => exact Or.inr (Or.inr ⟨f, w, rfl⟩)
  · intro line hctl hrej
    rw [main_body_rejected sys s line hctl hrej]
    rcases main_error_cases s with h | ⟨f, h, _⟩
    · exact Or.inl h
    · exact Or.inr ⟨f, h⟩

/-! ### Lines read while a block is collected -/

/-- A line of commands read in a collecting state is not run: its fields, each short enough for
the buffer of `add_cmd`, are appended to the current block, which holds the strings `fs`. -/
theorem plain_line_appended (sys : Sys) (s : Shell) (line : Str) (fs : List Str) (k : Nat)
    (hstate : s.ctx.state = State.if_state ∨ s.ctx.state = State.then_state
      ∨ s.ctx.state = State.else_state)
    (hblk : (block_by_state s.ctx).getD (init_list s.sz)
      = fs.map Cell.str ++ List.replicate k Cell.uninit)
    (hidx : s.idx = fs.length) (hsz : s.sz = fs.length + k) (h1 : 1 ≤ s.sz)
    (hplain : plain_line line)
    (hshort : ∀ f ∈ split_drop_empty line ';', f.length < sizeof_ptr) :
    ∃ k1, main_body sys (line ++ ['\n']) s
        = Step.next
            { ctx := if split_drop_empty line ';' = [] then s.ctx
                else set_block_by_state s.ctx
                  (some ((fs ++ split_drop_empty line ';').map Cell.str
                    ++ List.replicate k1 Cell.uninit))
              idx := (fs ++ split_drop_empty line ';').length
              sz := (fs ++ split_drop_empty line ';').length + k1
              world := s.world }
      ∧ 1 ≤ (fs ++ split_drop_empty line ';').length + k1
      ∧ (split_drop_empty line ';' = [] → k1 = k) := by
  obtain ⟨hp2, hctl, hexit⟩ := hplain
  have hndef : s.ctx.state ≠ State.def_state := by
    rcases hstate with h | h | h <;> rw [h] <;> decide
  obtain ⟨sctx, sidx, ssz, sworld⟩ := s
  simp only at hstate hblk hidx hsz h1 hndef
  subst hidx
  subst hsz
  by_cases hne : line = []
  · subst hne
    refine ⟨k, ?_, by simpa [split_drop_empty_nil] using h1, fun _ => rfl⟩
    simp [main_body, split_drop_empty_nil]
  · obtain ⟨rest, hl⟩ := list_from_line_ok line ';'
    rw [main_body_plain sys line _ hne hp2 hctl hexit, hl]
    simp only [if_neg hndef]
    by_cases hf : split_drop_empty line ';' = []
    · refine ⟨k, ?_, by simpa [hf] using h1, fun _ => rfl⟩
      simp [hf, add_cmds]
    · obtain ⟨k1, hadd⟩ := add_cmds_append (split_drop_empty line ';') sctx fs k rest
        hstate hblk h1 hshort hf
      refine ⟨k1, ?_, ?_, fun h => absurd h hf⟩
      · rw [hadd]
        simp [hf]
      · have : 1 ≤ (split_drop_empty line ';').length := by
          cases hsp : split_drop_empty line ';' with
          | nil => exact absurd hsp hf
          | cons a l => simp
        simp only [List.length_append]
        omega

/-! ### A whole conditional statement -/

theorem take_exit_newline (line : Str) :
    (line ++ ['\n']).take 4 = "exit".toList ↔ line.take 4 = "exit".toList := by
  rcases line with _ | ⟨a, _ | ⟨b, _ | ⟨c, _ | ⟨d, rest⟩⟩⟩⟩ <;> simp

theorem main_error_not_exit_success (s s1 : Shell) : main_error s ≠ Step.exit_success s1 := by
  rcases main_error_cases s with h | ⟨f, h, _⟩ <;> rw [h] <;> simp

theorem main_control_not_exit_success (sys : Sys) (line : Str) (s s1 : Shell) :
    main_control sys line s ≠ Step.exit_success s1 := by
  unfold main_control
  split_ifs
  · exact main_error_not_exit_success _ _
  · simp
  · split
    · simp
    · dsimp only
      split_ifs
      · split
        · simp
        · split_ifs
          · exact main_error_not_exit_success _ _
          · split <;> simp
      · simp

theorem add_cmds_state : ∀ (cells : Block) (ctx ctx1 : context) (sz idx sz1 idx1 : Nat),
    add_cmds cells ctx sz idx = Except.ok (ctx1, sz1, idx1) → ctx1.state = ctx.state := by
  intro cells
  induction cells with
  | nil => intro ctx ctx1 sz idx sz1 idx1 h; simp [add_cmds] at h
  | cons c rest ih =>
    intro ctx ctx1 sz idx sz1 idx1 h
    cases c with
    | uninit => simp [add_cmds] at h
    | null =>
      simp only [add_cmds, Except.ok.injEq, Prod.mk.injEq] at h
      rw [← h.1]
    | str s =>
      simp only [add_cmds] at h
      cases hadd : add_cmd ctx s sz idx with
      | error f => rw [hadd] at h; simp at h
      | ok r =>
        obtain ⟨r0, ctx2, sz2, idx2⟩ := r
        rw [hadd] at h
        have h2 := ih ctx2 ctx1 sz2 idx2 sz1 idx1 h
        rw [h2]
        unfold add_cmd at hadd
        dsimp only at hadd
        split_ifs at hadd
        all_goals
          split at hadd
          · simp at hadd
          · simp only [Except.ok.injEq, Prod.mk.injEq] at hadd
            rw [← hadd.2.1]
            unfold set_block_by_state
            split <;> rfl

/-- A line that is no keyword leaves the state of the context as it is. -/
theorem main_body_keeps_state (sys : Sys) (line : Str) (s s1 : Shell)
    (hctl : is_control_cmd line = false)
    (hnext : main_body sys (line ++ ['\n']) s = Step.next s1) :
    s1.ctx.state = s.ctx.state := by
  by_cases hne : line = []
  · subst hne
    simp only [main_body, List.nil_append, if_true, Step.next.injEq] at hnext
    rw [hnext]
  by_cases hexit : (line ++ ['\n']).take 4 = "exit".toList
  · have h1 : line ++ ['\n'] ≠ ['\n'] := by
      intro h0
      have := congrArg List.length h0
      simp at this
      exact hne this
    simp [main_body, h1, hexit] at hnext
  by_cases hpipe : is_pipeline line = true
  · rw [main_body_pipeline sys line s hpipe hexit] at hnext
    split at hnext
    · simp at hnext
    · split_ifs at hnext
      · exact absurd hnext (main_error_not_next _ _)
      · simp only [Step.next.injEq] at hnext
        rw [← hnext]
  · have hpipe0 : is_pipeline line = false := by simpa using hpipe
    rw [main_body_plain sys line s hne hpipe0 hctl hexit] at hnext
    split at hnext
    · simp at hnext
    · split_ifs at hnext
      · split at hnext
        · simp at hnext
        · split_ifs at hnext
          · exact absurd hnext (main_error_not_next _ _)
          · simp only [Step.next.injEq] at hnext
            rw [← hnext]
      · split at hnext
        · simp at hnext
        · rename_i ctx1 sz1 idx1 hadd
          simp only [Step.next.injEq] at hnext
          rw [← hnext]
          exact add_cmds_state _ _ _ _ _ _ _ hadd

theorem main_body_exit_iff (sys : Sys) (line : Str) (s : Shell) :
    (∃ s1, main_body sys (line ++ ['\n']) s = Step.exit_success s1)
      ↔ line.take 4 = "exit".toList := by
  constructor
  · rintro ⟨s1, h⟩
    by_contra hno
    have hexit : (line ++ ['\n']).take 4 ≠ "exit".toList := fun h0 =>
      hno ((take_exit_newline line).1 h0)
    by_cases hne : line = []
    · subst hne
      simp [main_body] at h
    by_cases hpipe : is_pipeline line = true
    · rw [main_body_pipeline sys line s hpipe hexit] at h
      split at h
      · simp at h
      · split_ifs at h
        · exact main_error_not_exit_success _ _ h
    by_cases hctl : is_control_cmd line = true
    · rw [main_body_control sys line s hctl] at h
      exact main_control_not_exit_success _ _ _ _ h
    · have hpipe0 : is_pipeline line = false := by simpa using hpipe
      have hctl0 : is_control_cmd line = false := by simpa using hctl
      rw [main_body_plain sys line s hne hpipe0 hctl0 hexit] at h
      split at h
      · simp at h
      · split_ifs at h
        · split at h
          · simp at h
          · split_ifs at h
            · exact main_error_not_exit_success _ _ h
        · split at h <;> simp at h
  · intro h
    have hne : line ≠ [] := by
      intro h0; subst h0; simp at h
    have h1 : line ++ ['\n'] ≠ ['\n'] := by
      intro h0
      have := congrArg List.length h0
      simp at this
      exact hne this
    exact ⟨s, by simp [main_body, h1, (take_exit_newline line).2 h]⟩

/-- C11 (counterexample). The lines `exit 1` and `exitfoo` are no ordinary commands,
each ends the session with success, in every state of the context and without running
anything. -/
theorem exit_with_more_text_ends_session :
    main_body sample_sys (entered "exit 1") init_shell = Step.exit_success init_shell
    ∧ main_body sample_sys (entered "exitfoo") init_shell = Step.exit_success init_shell
    ∧ (∀ (sys : Sys) (s : Shell), main_body sys (entered "exit 1") s = Step.exit_success s)
    ∧ (∀ (sys : Sys) (s : Shell), main_body sys (entered "exitfoo") s = Step.exit_success s) :=
  ⟨rfl, rfl, fun _ _ => rfl, fun _ _ => rfl⟩

/-- C11 (amended). A line (without its newline) is one of the keywords `if`, `then`,
`else`, `fi` exactly when it is that word, letter for letter, and then `main` takes the branch
of the keywords; a line that is none of the four never changes the state of the context; and a
line ends the session with success exactly when its first four characters are `exit`, whatever
follows them. -/
theorem keyword_recognition (sys : Sys) (line : Str) (s : Shell) :
    (is_control_cmd line = true ↔
      line = "if".toList ∨ line = "then".toList ∨ line = "else".toList ∨ line = "fi".toList)
    ∧ (is_control_cmd line = true →
        main_body sys (line ++ ['\n']) s = main_control sys line s)
    ∧ (is_control_cmd line = false →
        ∀ s1, main_body sys (line ++ ['\n']) s = Step.next s1 → s1.ctx.state = s.ctx.state)
    ∧ ((∃ s1, main_body sys (line ++ ['\n']) s = Step.exit_success s1)
        ↔ line.take 4 = "exit".toList)
    ∧ (line.take 4 = "exit".toList → main_body sys (line ++ ['\n']) s = Step.exit_success s) := by
  refine ⟨⟨is_control_cmd_cases line, ?_⟩, main_body_control sys line s,
    fun h s1 h1 => main_body_keeps_state sys line s s1 h h1, main_body_exit_iff sys line s, ?_⟩
  · rintro (h | h | h | h) <;> subst h <;> rfl
  · intro h
    have hne : line ≠ [] := by
      intro h0; subst h0; simp at h
    have h1 : line ++ ['\n'] ≠ ['\n'] := by
      intro h0
      have := congrArg List.length h0
      simp at this
      exact hne this
    simp [main_body, h1, (take_exit_newline line).2 h]

/-! ### The pipes of a pipeline -/

theorem update_command_at (f : command → command) (c : command) (rest : List command) :
    ∀ pre : List command,
      update_command f pre.length (pre ++ c :: rest) = pre ++ f c :: rest := by
  intro pre
  induction pre with
  | nil => rfl
  | cons p pre ih =>
    simp only [List.length_cons, List.cons_append, update_command]
    exact congrArg _ ih

theorem wire_head (sys : Sys) (fin x : Int) (c : command) (rest : List command) (w : World) :
    wire sys fin ({ c with fd_in := x } :: rest) w = wire sys fin (c :: rest) w := by
  cases rest <;> simp only [wire]

theorem connect_commands_wire (sys : Sys) : ∀ (rest : List command) (c : command)
    (pre : List command) (w : World),
    connect_commands sys rest.length pre.length (pre ++ c :: rest) w
      = ((wire sys c.fd_in (c :: rest) w).1, pre ++ (wire sys c.fd_in (c :: rest) w).2.1,
          (wire sys c.fd_in (c :: rest) w).2.2) := by
  intro rest
  induction rest with
  | nil => intro c pre w; rfl
  | cons c2 rest ih =>
    intro c pre w
    simp only [List.length_cons, connect_commands, wire]
    cases hp : sys.pipe w with
    | none => rfl
    | some p =>
      obtain ⟨rd, wr⟩ := p
      simp only []
      rw [update_command_at (fun c => { c with fd_out := wr }) c (c2 :: rest) pre]
      have h2 : pre ++ { c with fd_out := wr } :: c2 :: rest
          = (pre ++ [{ c with fd_out := wr }]) ++ c2 :: rest := by simp
      have h3 : pre.length + 1 = (pre ++ [{ c with fd_out := wr }]).length := by simp
      rw [h2, h3, update_command_at (fun c => { c with fd_in := rd }) c2 rest, ih]
      simp only [wire_head, List.append_assoc, List.singleton_append]

/-- What `wire` does: when no `pipe` fails it creates one pipe for each pair of neighbours and
nothing else, the read ends follow `fin` as the inputs of the stages, and the write ends are the
outputs of all stages but the last. -/
theorem wire_spec (sys : Sys) : ∀ (cmds : List command) (fin : Int) (w : World),
    ((wire sys fin cmds w).1 = false → ∃ w0, sys.pipe w0 = none)
    ∧ ((wire sys fin cmds w).1 = true → ∃ fds : List (Int × Int),
        (wire sys fin cmds w).2.2 = w ++ fds.map (fun p => Event.pipe p.1 p.2)
        ∧ fds.length = cmds.length - 1
        ∧ (wire sys fin cmds w).2.1.map (fun c => c.args) = cmds.map (fun c => c.args)
        ∧ (cmds ≠ [] →
            (wire sys fin cmds w).2.1.map (fun c => c.fd_in) = fin :: fds.map Prod.fst)
        ∧ (cmds ≠ [] → (∀ c ∈ cmds, c.fd_out = -1) →
            (wire sys fin cmds w).2.1.map (fun c => c.fd_out) = fds.map Prod.snd ++ [-1])) := by
  intro cmds
  induction cmds with
  | nil =>
    intro fin w
    exact ⟨fun h => by simp [wire] at h, fun _ => ⟨[], by simp [wire]⟩⟩
  | cons c tail ih =>
    intro fin w
    cases tail with
    | nil =>
      refine ⟨fun h => by simp [wire] at h, fun _ => ⟨[], ?_⟩⟩
      refine ⟨by simp [wire], rfl, rfl, fun _ => rfl, fun _ h => ?_⟩
      simp [wire, h c (List.mem_singleton.2 rfl)]
    | cons c2 rest =>
      cases hp : sys.pipe w with
      | none => exact ⟨fun _ => ⟨w, hp⟩, fun h => by simp [wire, hp] at h⟩
      | some p =>
        obtain ⟨rd, wr⟩ := p
        obtain ⟨ihf, iht⟩ := ih rd (w ++ [Event.pipe rd wr])
        have hw : wire sys fin (c :: c2 :: rest) w
            = ((wire sys rd (c2 :: rest) (w ++ [Event.pipe rd wr])).1,
                { c with fd_in := fin, fd_out := wr }
                  :: (wire sys rd (c2 :: rest) (w ++ [Event.pipe rd wr])).2.1,
                (wire sys rd (c2 :: rest) (w ++ [Event.pipe rd wr])).2.2) := by
          simp only [wire, hp]
        rw [hw]
        refine ⟨ihf, fun h => ?_⟩
        obtain ⟨fds, h1, h2, h3, h4, h5⟩ := iht h
        refine ⟨(rd, wr) :: fds, ?_, ?_, ?_, fun _ => ?_, fun _ hout => ?_⟩
        · simp only [h1, List.map_cons, List.append_assoc, List.singleton_append]
        · simp only [List.length_cons, h2]; rfl
        · simp only [List.map_cons, h3]
        · simp only [List.map_cons, h4 (List.cons_ne_nil _ _)]
        · simp only [List.map_cons, List.cons_append]
          rw [h5 (List.cons_ne_nil _ _) (fun x hx => hout x (List.mem_cons_of_mem _ hx))]

theorem wire_args (sys : Sys) : ∀ (cmds : List command) (fin : Int) (w : World),
    (wire sys fin cmds w).2.1.map (fun c => c.args) = cmds.map (fun c => c.args) := by
  intro cmds
  induction cmds with
  | nil => intro fin w; rfl
  | cons c tail ih =>
    intro fin w
    cases tail with
    | nil => rfl
    | cons c2 rest =>
      cases hp : sys.pipe w with
      | none => simp only [wire, hp, List.map_cons]
      | some p =>
        obtain ⟨rd, wr⟩ := p
        simp only [wire, hp, List.map_cons]
        exact congrArg _ (ih rd (w ++ [Event.pipe rd wr]))

theorem build_commands_fds : ∀ (b : Block) (cmds : List command),
    build_commands b = Except.ok cmds → ∀ c ∈ cmds, c.fd_in = -1 ∧ c.fd_out = -1 := by
  intro b
  induction b with
  | nil => intro cmds h; simp [build_commands] at h
  | cons x rest ih =>
    intro cmds h
    cases x with
    | uninit => simp [build_commands] at h
    | null =>
      simp only [build_commands, Except.ok.injEq] at h
      subst h
      intro c hc
      simp at hc
    | str s =>
      simp only [build_commands] at h
      split at h
      · simp at h
      · split at h
        · simp at h
        · rename_i cs hcs
          simp only [Except.ok.injEq] at h
          subst h
          intro c hc
          rcases List.mem_cons.1 hc with hc | hc
          · subst hc; exact ⟨rfl, rfl⟩
          · exact ih cs hcs c hc

/-- The commands that `process_pipeline` hands to `run_pipeline`, for every line and every
system. -/
theorem pipeline_commands_spec (sys : Sys) (line : Str) (w : World) :
    ∃ ok cmds w1, pipeline_commands sys line w = Except.ok (ok, cmds, w1)
      ∧ cmds.map (fun c => argv_of c.args)
          = (split_drop_empty line '|').map (fun st => split_drop_empty st ' ')
      ∧ cmds.length = (split_drop_empty line '|').length
      ∧ (ok = false → ∃ w0, sys.pipe w0 = none)
      ∧ (ok = true → ∃ fds : List (Int × Int),
          w1 = w ++ fds.map (fun p => Event.pipe p.1 p.2)
          ∧ fds.length = (split_drop_empty line '|').length - 1
          ∧ (1 ≤ (split_drop_empty line '|').length →
              cmds.map (fun c => c.fd_in) = -1 :: fds.map Prod.fst
              ∧ cmds.map (fun c => c.fd_out) = fds.map Prod.snd ++ [-1])) := by
  obtain ⟨rest, hl⟩ := list_from_line_ok line '|'
  obtain ⟨cmds, hb, hargv, hlen⟩ := build_commands_argv (split_drop_empty line '|') rest
  have hfds := build_commands_fds _ cmds hb
  simp only [pipeline_commands, hl, hb]
  cases cmds with
  | nil =>
    have h0 : (split_drop_empty line '|').length = 0 := by rw [← hlen]; rfl
    rw [h0]
    refine ⟨true, [], w, rfl, ?_, rfl, fun h => by simp at h, fun _ => ⟨[], by simp, rfl, ?_⟩⟩
    · rw [← hargv]
    · intro h; simp at h
  | cons c tail =>
    have hn : (split_drop_empty line '|').length - 1 = tail.length := by
      rw [← hlen]; rfl
    have hc := connect_commands_wire sys tail c [] w
    simp only [List.length_nil, List.nil_append] at hc
    rw [hn, hc]
    obtain ⟨hf, ht⟩ := wire_spec sys (c :: tail) c.fd_in w
    have hmap : ∀ (l1 l2 : List command), l1.map (fun c => c.args) = l2.map (fun c => c.args) →
        l1.map (fun c => argv_of c.args) = l2.map (fun c => argv_of c.args) := by
      intro l1 l2 h
      have := congrArg (List.map argv_of) h
      simpa [List.map_map] using this
    have hlen2 : ∀ (l1 l2 : List command),
        l1.map (fun c => c.args) = l2.map (fun c => c.args) → l1.length = l2.length := by
      intro l1 l2 h
      have := congrArg List.length h
      simpa using this
    have h3 := wire_args sys (c :: tail) c.fd_in w
    cases hok : (wire sys c.fd_in (c :: tail) w).1 with
    | false =>
      refine ⟨false, _, _, rfl, ?_, ?_, fun _ => hf hok, fun h => by simp at h⟩
      · rw [hmap _ _ h3, hargv]
      · rw [hlen2 _ _ h3, hlen]
    | true =>
      obtain ⟨fds, h1, h2, _, h4, h5⟩ := ht hok
      refine ⟨true, _, _, rfl, ?_, ?_, fun h => by simp at h,
        fun _ => ⟨fds, h1, ?_, fun _ => ⟨?_, ?_⟩⟩⟩
      · rw [hmap _ _ h3, hargv]
      · rw [hlen2 _ _ h3, hlen]
      · rw [h2]; rfl
      · rw [h4 (List.cons_ne_nil _ _), (hfds c (List.mem_cons_self _ _)).1]
      · exact h5 (List.cons_ne_nil _ _) (fun x hx => (hfds x hx).2)

theorem process_pipeline_run (sys : Sys) (line : Str) (w : World) (cmds : List command)
    (w1 : World) (h : pipeline_commands sys line w = Except.ok (true, cmds, w1)) :
    process_pipeline sys line w = pipeline_run sys cmds cmds.length w1 := by
  obtain ⟨ok, cmds0, w0, h0, _, hlen, _, _⟩ := pipeline_commands_spec sys line w
  rw [h] at h0
  simp only [Except.ok.injEq, Prod.mk.injEq] at h0
  obtain ⟨_, hc, _⟩ := h0
  subst hc
  obtain ⟨rest, hl⟩ := list_from_line_ok line '|'
  obtain ⟨cmds1, hb, _, _⟩ := build_commands_argv (split_drop_empty line '|') rest
  simp only [pipeline_commands, hl, hb, Except.ok.injEq] at h
  simp only [process_pipeline, hl, hb, h, pipeline_run, hlen]

theorem process_pipeline_pipe_failed (sys : Sys) (line : Str) (w : World)
    (cmds : List command) (w1 : World)
    (h : pipeline_commands sys line w = Except.ok (false, cmds, w1)) :
    process_pipeline sys line w = Except.error (Fault.indeterminate_value, w1) := by
  obtain ⟨rest, hl⟩ := list_from_line_ok line '|'
  obtain ⟨cmds1, hb, _, _⟩ := build_commands_argv (split_drop_empty line '|') rest
  simp only [pipeline_commands, hl, hb, Except.ok.injEq] at h
  simp only [process_pipeline, hl, hb, h]

/-- C12. For every line and every system, `process_pipeline` builds one command for each of the
`N` stages of the line; when no `pipe` fails (the only way for it not to reach `run_pipeline`)
it has created exactly `N - 1` pipes and nothing else before it calls `run_pipeline` on these
commands, and for `N ≥ 1` the inputs of the stages are `-1` followed by the read ends of the
pipes in the order of their creation, the outputs are the write ends followed by `-1`: stage
`k` writes to the `k`-th pipe and stage `k + 1` reads from it, the first stage has no input and
the last no output. -/
theorem pipeline_wiring (sys : Sys) (line : Str) (w : World) :
    ∃ ok cmds w1, pipeline_commands sys line w = Except.ok (ok, cmds, w1)
      ∧ cmds.length = (split_drop_empty line '|').length
      ∧ ((∀ w0, sys.pipe w0 ≠ none) → ok = true)
      ∧ (ok = true → process_pipeline sys line w = pipeline_run sys cmds cmds.length w1)
      ∧ (ok = true → ∃ fds : List (Int × Int),
          w1 = w ++ fds.map (fun p => Event.pipe p.1 p.2)
          ∧ fds.length = (split_drop_empty line '|').length - 1
          ∧ (1 ≤ (split_drop_empty line '|').length →
              cmds.map (fun c => c.fd_in) = -1 :: fds.map Prod.fst
              ∧ cmds.map (fun c => c.fd_out) = fds.map Prod.snd ++ [-1]
              ∧ (∀ k, k + 1 < (split_drop_empty line '|').length →
                  cmds[k]?.map (fun c => c.fd_out) = fds[k]?.map Prod.snd
                  ∧ cmds[k + 1]?.map (fun c => c.fd_in) = fds[k]?.map Prod.fst
                  ∧ fds[k]? ≠ none)
              ∧ cmds[0]?.map (fun c => c.fd_in) = some (-1)
              ∧ cmds[(split_drop_empty line '|').length - 1]?.map (fun c => c.fd_out)
                  = some (-1))) := by
  obtain ⟨ok, cmds, w1, h, _, hlen, hf, ht⟩ := pipeline_commands_spec sys line w
  refine ⟨ok, cmds, w1, h, hlen, ?_, ?_, ?_⟩
  · intro hp
    cases ok with
    | true => rfl
    | false =>
      obtain ⟨w0, h0⟩ := hf rfl
      exact absurd h0 (hp w0)
  · intro hok
    subst hok
    exact process_pipeline_run sys line w cmds w1 h
  · intro hok
    obtain ⟨fds, h1, h2, h3⟩ := ht hok
    refine ⟨fds, h1, h2, fun hN => ?_⟩
    obtain ⟨hin, hout⟩ := h3 hN
    refine ⟨hin, hout, fun k hk => ⟨?_, ?_, ?_⟩, ?_, ?_⟩
    · have hk2 : k < (fds.map Prod.snd).length := by
        rw [List.length_map, h2]; omega
      have := congrArg (fun l => l[k]?) hout
      simpa [List.getElem?_append_left hk2] using this
    · have := congrArg (fun l => l[k + 1]?) hin
      simpa using this
    · have hk2 : k < fds.length := by rw [h2]; omega
      simp [List.getElem?_eq_getElem hk2]
    · have := congrArg (fun l => l[0]?) hin
      simpa using this
    · have := congrArg (fun l => l[(split_drop_empty line '|').length - 1]?) hout
      have hl2 : (fds.map Prod.snd).length = (split_drop_empty line '|').length - 1 := by
        rw [List.length_map, h2]
      rw [← hl2] at this
      rw [← hl2]
      simpa using this

/-! ### The descriptors of the processes of a pipeline -/

/-- C13. Evaluation at the failing input: the line `a|b|c` with every call succeeding.  The shell
creates both pipes (descriptors 3, 4 and 5, 6) before the first `fork`, and a child closes only
the two descriptors of its own command after `dup2`.  At the end the shell holds no end of a
pipe, but the child of `a` still holds both ends of the second pipe (descriptors 5 and 6), to
which it is not attached, and the read end of the first; the write end of the second pipe is
held by the child of `a` and by the child of `b`, and its read end by all three children. -/
theorem first_stage_keeps_second_pipe :
    ∃ w, process_pipeline sample_sys "a|b|c".toList [] = Except.ok (0, w)
      ∧ parent_fds w = []
      ∧ child_fds sample_csys w =
          [[(3, End.rd 0), (5, End.rd 1), (6, End.wr 1), (1, End.wr 0)],
           [(5, End.rd 1), (0, End.rd 0), (1, End.wr 1)],
           [(0, End.rd 1)]]
      ∧ (∀ t0 t1 t2, child_fds sample_csys w = [t0, t1, t2] →
          End.wr 1 ∈ held t0 ∧ End.wr 1 ∈ held t1 ∧ End.rd 1 ∈ held t0 ∧ End.rd 1 ∈ held t1
            ∧ End.rd 1 ∈ held t2 ∧ End.rd 0 ∈ held t0) := by
  refine ⟨_, rfl, rfl, rfl, ?_⟩
  intro t0 t1 t2 h
  have h2 : [[(3, End.rd 0), (5, End.rd 1), (6, End.wr 1), (1, End.wr 0)],
      [(5, End.rd 1), (0, End.rd 0), (1, End.wr 1)], [(0, End.rd 1)]] = [t0, t1, t2] := h
  simp only [List.cons.injEq, and_true] at h2
  obtain ⟨h0, h1, h3⟩ := h2
  subst h0 h1 h3
  decide

/-! ### The order of `fork` and `wait` in a pipeline -/

theorem free_command_trace (sys : Sys) (hclose : ∀ w fd, sys.close w fd = true) (c : command)
    (w : World) :
    ∃ ext, free_command sys c w = (0, c, w ++ ext) ∧ (∀ e ∈ ext, is_wait e = false)
      ∧ launched ext = [] := by
  refine ⟨[Event.free_args (argv_of c.args)]
    ++ (if c.fd_in ≠ -1 then [Event.close c.fd_in] else [])
    ++ (if c.fd_out ≠ -1 then [Event.close c.fd_out] else []), ?_, ?_, ?_⟩
  · by_cases hin : c.fd_in = -1 <;> by_cases hout : c.fd_out = -1 <;>
      simp [free_command, hclose, hin, hout]
  · by_cases hin : c.fd_in = -1 <;> by_cases hout : c.fd_out = -1 <;>
      simp [hin, hout, is_wait]
  · by_cases hin : c.fd_in = -1 <;> by_cases hout : c.fd_out = -1 <;>
      simp [hin, hout, launched]

theorem run_pipeline_loop_trace (sys : Sys) (hfork : ∀ w, sys.fork w = true)
    (hclose : ∀ w fd, sys.close w fd = true) :
    ∀ (cmds done : List command) (n : Nat) (w : World),
    ∃ done1 ext, run_pipeline_loop sys cmds done n w
        = (((n + cmds.length : Nat) : Int), done1, w ++ ext)
      ∧ (∀ e ∈ ext, is_wait e = false)
      ∧ launched ext = cmds.map (fun c => argv_of c.args) := by
  intro cmds
  induction cmds with
  | nil => intro done n w; exact ⟨done, [], by simp [run_pipeline_loop], by simp, rfl⟩
  | cons c cs ih =>
    intro done n w
    obtain ⟨ext1, hfree, hw1, hl1⟩ := free_command_trace sys hclose c
      (w ++ [Event.fork (argv_of c.args) c.fd_in c.fd_out])
    obtain ⟨done1, ext2, hrec, hw2, hl2⟩ := ih (done ++ [c]) (n + 1)
      (w ++ [Event.fork (argv_of c.args) c.fd_in c.fd_out] ++ ext1)
    refine ⟨done1, Event.fork (argv_of c.args) c.fd_in c.fd_out :: (ext1 ++ ext2), ?_, ?_, ?_⟩
    · simp only [run_pipeline_loop, hfork, if_true, hfree]
      rw [if_neg (by decide), hrec]
      simp only [List.length_cons, List.append_assoc, List.singleton_append]
      congr 2
      omega
    · intro e he
      rcases List.mem_cons.1 he with he | he
      · subst he; rfl
      · rcases List.mem_append.1 he with he | he
        · exact hw1 e he
        · exact hw2 e he
    · simp only [launched, List.map_cons, launched_append, hl1, hl2, List.nil_append]

theorem wait_pipeline_trace (sys : Sys) (hwait : ∀ w, ∃ st, sys.wait w = some st) :
    ∀ (n : Nat) (w : World),
    ∃ sts : List Int, wait_pipeline sys n w = (true, -1, w ++ sts.map Event.wait)
      ∧ sts.length = n := by
  intro n
  induction n with
  | zero => intro w; exact ⟨[], by simp [wait_pipeline], rfl⟩
  | succ n ih =>
    intro w
    obtain ⟨st, hst⟩ := hwait w
    obtain ⟨sts, h1, h2⟩ := ih (w ++ [Event.wait st])
    refine ⟨st :: sts, ?_, by simp [h2]⟩
    simp only [wait_pipeline, hst, h1, List.map_cons, List.append_assoc, List.singleton_append]

/-- C14 (counterexample). The line `a|b` in a system in which every `fork`
succeeds and `wait` fails.  Both stages are created, the first `wait` fails, and
`process_pipeline` returns `-1` after this one call, so that `main` leaves with
`exit(EXIT_FAILURE)`: two children and no child waited for. -/
theorem failed_wait_ends_pipeline :
    process_pipeline no_wait_sys "a|b".toList []
      = Except.ok (-1,
          [Event.pipe 3 4,
           Event.fork ["a".toList] (-1) 4, Event.free_args ["a".toList], Event.close 4,
           Event.fork ["b".toList] 3 (-1), Event.free_args ["b".toList], Event.close 3,
           Event.wait_failed])
    ∧ (∀ w, no_wait_sys.fork w = true)
    ∧ ∃ s, main_body no_wait_sys (entered "a|b") init_shell = Step.exit_failure s :=
  ⟨rfl, fun _ => rfl, _, rfl⟩

/-- C14 (amended). When every `pipe`, `fork`, `close` and `wait` of the shell
succeeds, `process_pipeline` returns 0 for every line, and what it adds to the history is first
a part without any `wait` in which the `N` stages of the line are created in order, each with
the words of its field, and then exactly `N` calls of `wait`, whatever status they report. -/
theorem pipeline_spawns_then_waits (sys : Sys) (hfork : ∀ w, sys.fork w = true)
    (hwait : ∀ w, ∃ st, sys.wait w = some st) (hpipe : ∀ w, ∃ fds, sys.pipe w = some fds)
    (hclose : ∀ w fd, sys.close w fd = true) (line : Str) (w : World) :
    ∃ (ext : World) (sts : List Int),
      process_pipeline sys line w = Except.ok (0, w ++ ext ++ sts.map Event.wait)
      ∧ (∀ e ∈ ext, is_wait e = false)
      ∧ launched ext = (split_drop_empty line '|').map (fun st => split_drop_empty st ' ')
      ∧ sts.length = (split_drop_empty line '|').length := by
  obtain ⟨ok, cmds, w1, h, hargv, hlen, hf, ht⟩ := pipeline_commands_spec sys line w
  have hok : ok = true := by
    cases ok with
    | true => rfl
    | false =>
      obtain ⟨w0, h0⟩ := hf rfl
      obtain ⟨fds, h1⟩ := hpipe w0
      rw [h1] at h0
      simp at h0
  subst hok
  obtain ⟨fds, hw1, _, _⟩ := ht rfl
  obtain ⟨done, ext, hr, hnw, hl⟩ := run_pipeline_loop_trace sys hfork hclose cmds [] 0 w1
  obtain ⟨sts, hwp, hsl⟩ := wait_pipeline_trace sys hwait cmds.length (w1 ++ ext)
  refine ⟨fds.map (fun p => Event.pipe p.1 p.2) ++ ext, sts, ?_, ?_, ?_, ?_⟩
  · rw [process_pipeline_run sys line w cmds w1 h]
    simp only [pipeline_run, run_pipeline, hr]
    have : ¬ (((0 + cmds.length : Nat) : Int) = -1) := by omega
    rw [if_neg this]
    simp only [Nat.zero_add, Int.toNat_ofNat]
    rw [hwp]
    simp only [hw1, List.append_assoc]
  · intro e he
    rcases List.mem_append.1 he with he | he
    · obtain ⟨p, _, hp⟩ := List.mem_map.1 he
      rw [← hp]; rfl
    · exact hnw e he
  · rw [launched_append, hl, hargv]
    have : ∀ l : List (Int × Int), launched (l.map (fun p => Event.pipe p.1 p.2)) = [] := by
      intro l
      induction l with
      | nil => rfl
      | cons p l ih => simpa [launched] using ih
    rw [this, List.nil_append]
  · rw [hsl, hlen]

/-- The theorem `pipeline_spawns_then_waits` at the line `ls | wc` in the sample system, after
which the history is the pipe, the two children and then two calls of `wait`. -/
theorem pipeline_spawns_then_waits_witness :
    ∃ (ext : World) (sts : List Int),
      process_pipeline sample_sys "ls | wc".toList []
        = Except.ok (0, [] ++ ext ++ sts.map Event.wait)
      ∧ (∀ e ∈ ext, is_wait e = false)
      ∧ launched ext
          = (split_drop_empty "ls | wc".toList '|').map (fun st => split_drop_empty st ' ')
      ∧ sts.length = (split_drop_empty "ls | wc".toList '|').length :=
  pipeline_spawns_then_waits sample_sys (fun _ => rfl)
    (fun _ => ⟨_, rfl⟩) (fun _ => ⟨_, rfl⟩) (fun _ _ => rfl) "ls | wc".toList []

/-! ### A `fork` that fails in a pipeline -/

/-- C15. Evaluation at the failing input: the line `a|b` when the second `fork` fails (`j = 1`)
and `close` fails on a descriptor that is not open.  `run_pipeline` has released the first
command, waits once and returns `-1`; `process_pipeline` then calls `free_commands` with
`started_num = -1`, which starts again at the first command: its arguments are freed a second
time, its descriptor 4 is closed a second time (the call fails), and there `free_commands`
stops, so that descriptor 3, the read end, is still open when `process_pipeline` returns. -/
theorem failed_fork_releases_started_stage_again :
    process_pipeline (strict_sys 1) "a|b".toList []
      = Except.ok (-1,
          [Event.pipe 3 4,
           Event.fork ["a".toList] (-1) 4, Event.free_args ["a".toList], Event.close 4,
           Event.fork_failed,
           Event.wait 0,
           Event.free_args ["a".toList], Event.close_failed 4])
    ∧ parent_fds
        [Event.pipe 3 4,
         Event.fork ["a".toList] (-1) 4, Event.free_args ["a".toList], Event.close 4,
         Event.fork_failed,
         Event.wait 0,
         Event.free_args ["a".toList], Event.close_failed 4] = [(3, End.rd 0)] := by
  constructor
  · decide
  · rfl

/-! ### Fields made of spaces -/

/-- C16. Evaluation at the failing input: the field between the two `;` of `ls; ;pwd` is one
space; it is kept as a command, its argument vector is empty, and `exec_block` hands this vector
to `execute`, which creates a child for it.  The same holds for the stage between the two `|`
of `ls| |wc`, which `process_pipeline` hands to `run_pipeline` with no argument at all. -/
theorem blank_field_gives_empty_argv :
    main_body sample_sys (entered "ls; ;pwd") init_shell
      = Step.next { init_shell with
          world := [Event.fork ["ls".toList] (-1) (-1), Event.wait 0,
                    Event.fork [] (-1) (-1), Event.wait 0,
                    Event.fork ["pwd".toList] (-1) (-1), Event.wait 0] }
    ∧ pipeline_commands sample_sys "ls| |wc".toList []
      = Except.ok (true,
          [{ args := [Cell.str "ls".toList, Cell.null], fd_in := -1, fd_out := 4 },
           { args := [Cell.null], fd_in := 3, fd_out := 6 },
           { args := [Cell.str "wc".toList, Cell.null], fd_in := 5, fd_out := -1 }],
          [Event.pipe 3 4, Event.pipe 5 6])
    ∧ (∃ w, process_pipeline sample_sys "ls| |wc".toList [] = Except.ok (0, w)
        ∧ launched w = [["ls".toList], [], ["wc".toList]]) := by
  refine ⟨by decide, by decide, _, rfl, by decide⟩

/-! ### A statement without else-block -/

/-- C17. Evaluation at the failing inputs.  After `if`, `false`, `then`, `echo A`, `fi` the child
of `false` exits with status 1 and the then-block is run all the same (`echo A`): a further
command.  After `if`, `a`, `then`, `b`, `fi` with the child of `a` killed by a signal,
`exec_context` takes the else-branch and `exec_block` loads through the null pointer of the
block that does not exist. -/
theorem missing_else_block_is_not_skipped :
    run_lines sample_sys (["if", "false", "then", "echo A", "fi"].map entered) init_shell
      = Step.next { init_shell with
          world := [Event.fork ["false".toList] (-1) (-1), Event.wait 256,
                    Event.fork ["echo".toList, "A".toList] (-1) (-1), Event.wait 0] }
    ∧ run_lines killed_sys (["if", "a", "then", "b", "fi"].map entered) init_shell
      = Step.fault Fault.invalid_access [Event.fork ["a".toList] (-1) (-1), Event.wait 9] := by
  constructor <;> decide

/-! ### The buffer of `add_cmd` -/

/-- The copy of a command of 8 characters or more does not fit the buffer of `sizeof(char*)`
bytes that `add_cmd` allocates for it. -/
theorem add_cmd_overflow (ctx : context) (cmd : Str) (sz idx : Nat)
    (h : sizeof_ptr < cmd.length + 1) :
    add_cmd ctx cmd sz idx = Except.error Fault.buffer_overflow := by
  simp [add_cmd, h]

/-- C18. Evaluation at the failing input: for the command `echo hello` (10 characters, 11 bytes
with the terminator) `add_cmd` allocates the 8 bytes of a pointer and `strcpy` writes past
their end; a command of 7 characters, `echo hi`, is the longest that is stored in full. -/
theorem add_cmd_buffer_is_pointer_sized :
    sizeof_ptr = 8
    ∧ "echo hello".toList.length + 1 = 11
    ∧ add_cmd { empty_context with state := State.if_state } "echo hello".toList 1 0
      = Except.error Fault.buffer_overflow
    ∧ add_cmd { empty_context with state := State.if_state } "echo hi".toList 1 0
      = Except.ok (0, { empty_context with
          state := State.if_state, if_block := some [Cell.str "echo hi".toList] }, 1, 1)
    ∧ add_cmd { empty_context with state := State.if_state } "echo hi!".toList 1 0
      = Except.error Fault.buffer_overflow := by
  refine ⟨rfl, rfl, by decide, by decide, by decide⟩

/-! ### A branch without lines -/

/-- C19. Evaluation at the failing input: after `if`, `true`, `then` the then-block does not
exist (its pointer is null, and `idx` is 0 with `sz` 1); on `fi`, `add_eob` stores the
terminator through that null pointer, before anything is executed. -/
theorem fi_after_empty_then_stores_through_null :
    run_lines sample_sys (["if", "true", "then"].map entered) init_shell
      = Step.next
          { ctx := { if_block := some [Cell.str "true".toList, Cell.null],
                     then_block := none, else_block := none, state := State.then_state },
            idx := 0, sz := 1, world := [] }
    ∧ run_lines sample_sys (["if", "true", "then", "fi"].map entered) init_shell
      = Step.fault Fault.invalid_access [] := by
  constructor <;> decide

/-! ### The commands that `free_commands` releases -/

/-- C20. Evaluation at the failing input: for three commands of which the first was started
(`started_num = 1`), `free_commands` releases the command of index 0, the started one, and
neither of the two others; with `started_num = 0` it releases the first two and not the third,
with `started_num = 2` none.  It always starts at index 0 and runs over `len - started_num - 1`
commands. -/
theorem free_commands_releases_from_the_front :
    free_commands sample_sys sample_cmds 3 1 []
      = (0, sample_cmds, [Event.free_args ["a".toList], Event.close 4])
    ∧ free_commands sample_sys sample_cmds 3 0 []
      = (0, sample_cmds, [Event.free_args ["a".toList], Event.close 4,
          Event.free_args ["b".toList], Event.close 3, Event.close 6])
    ∧ free_commands sample_sys sample_cmds 3 2 [] = (0, sample_cmds, [])
    ∧ (∀ (sys : Sys) (cmds : List command) (len started_num : Int) (w : World),
        free_commands sys cmds len started_num w
          = free_commands_loop sys (len - started_num - 1).toNat cmds w) := by
  refine ⟨by decide, by decide, by decide, fun _ _ _ _ _ => rfl⟩

/-! ### The stores of `list_from_line` -/

theorem realloc_length (a : Block) (n : Nat) : (realloc a n).length = n := by
  simp only [realloc, List.length_append, List.length_take, List.length_replicate]
  omega

theorem capacity_for_pos : ∀ n, 1 ≤ capacity_for n ∧ n ≤ capacity_for n := by
  intro n
  induction n with
  | zero => exact ⟨Nat.le_refl 1, Nat.zero_le _⟩
  | succ n ih =>
    simp only [capacity_for]
    split_ifs with h <;> omega

theorem capacity_for_le : ∀ n, capacity_for n ≤ 1 ∨ capacity_for n + 2 ≤ 2 * n := by
  intro n
  induction n with
  | zero => exact Or.inl (Nat.le_refl 1)
  | succ n ih =>
    have hp := capacity_for_pos n
    simp only [capacity_for]
    split_ifs with h <;> omega

theorem capacity_for_mono : ∀ m n, m ≤ n → capacity_for m ≤ capacity_for n := by
  intro m n h
  induction n with
  | zero =>
    have : m = 0 := by omega
    subst this
    exact Nat.le_refl _
  | succ n ih =>
    rcases Nat.lt_or_ge m (n + 1) with h1 | h1
    · have h2 := ih (by omega)
      have hp := capacity_for_pos n
      simp only [capacity_for]
      split_ifs <;> omega
    · have : m = n + 1 := by omega
      subst this
      exact Nat.le_refl _

/-- A call of `strtok` that returns a token leaves less text than it got: nothing, or at least
two characters less (the token is not empty and the delimiter after it is skipped). -/
theorem strtok_progress (q delim p save : Str) (h : strtok q delim = some (p, save)) :
    (save = [] ∧ 1 ≤ q.length) ∨ save.length + 2 ≤ q.length := by
  unfold strtok strspn strcspn at h
  simp only [drop_length_takeWhile] at h
  cases hs : q.dropWhile (fun c => decide (c ∈ delim)) with
  | nil => rw [hs] at h; simp at h
  | cons x xs =>
    rw [hs] at h
    have hx : ¬ (decide (x ∈ delim) = true) := by
      have := List.head_dropWhile_not (fun c => decide (c ∈ delim)) q (by rw [hs]; simp)
      simpa [hs] using this
    have hlen : (x :: xs).length ≤ q.length := by
      rw [← hs]; exact (List.dropWhile_sublist _).length_le
    simp only [reduceCtorEq, if_false, Option.some.injEq, Prod.mk.injEq] at h
    obtain ⟨_, hsave⟩ := h
    have htw : 1 ≤ ((x :: xs).takeWhile (fun c => !decide (c ∈ delim))).length := by
      have hx2 : x ∉ delim := by simpa using hx
      simp [List.takeWhile_cons, hx2]
    have hsum := congrArg List.length
      (List.takeWhile_append_dropWhile (fun c => !decide (c ∈ delim)) (x :: xs))
    rw [List.length_append] at hsum
    have hl : save.length
        = ((x :: xs).dropWhile (fun c => !decide (c ∈ delim))).length - 1 := by
      rw [← hsave]
      simp only [List.length_drop]
    rcases Nat.eq_zero_or_pos save.length with h0 | h0
    · left
      refine ⟨List.length_eq_zero.1 h0, ?_⟩
      simp only [List.length_cons] at hlen
      omega
    · right
      omega

/-- The loop of `list_from_line` from a state in which the array holds the strings `done` and
`k` free slots, its capacity being the one that the doubling rule gives: the loop ends without
a fault, every store of a field of index `i` is made when the array has `capacity_for (i + 1)`
slots, and the state at the end is of the same kind. -/
theorem list_from_line_loop_stores_spec (delim : Str) : ∀ (fuel : Nat) (q : Str)
    (done : List Str) (k : Nat),
    q.length < fuel → capacity_for done.length = done.length + k →
    ∃ (toks : List Str) (k1 : Nat),
      list_from_line_loop delim fuel q
          (done.map Cell.str ++ List.replicate k Cell.uninit) done.length (done.length + k)
        = Except.ok ((done ++ toks).map Cell.str ++ List.replicate k1 Cell.uninit,
            (done ++ toks).length, (done ++ toks).length + k1)
      ∧ capacity_for (done ++ toks).length = (done ++ toks).length + k1
      ∧ list_from_line_loop_stores delim fuel q
          (done.map Cell.str ++ List.replicate k Cell.uninit) done.length (done.length + k)
        = (List.range' done.length toks.length).map (fun i => (i, capacity_for (i + 1)))
      ∧ 2 * toks.length ≤ q.length + 1 := by
  intro fuel
  induction fuel with
  | zero => intro q done k h; omega
  | succ fuel ih =>
    intro q done k hq hcap
    have h1 : 1 ≤ done.length + k := by
      have := (capacity_for_pos done.length).1
      omega
    cases hs : strtok q delim with
    | none =>
      refine ⟨[], k, ?_, ?_, ?_, by simp⟩
      · simp [list_from_line_loop, hs]
      · simpa using hcap
      · simp [list_from_line_loop_stores, hs]
    | some r =>
      obtain ⟨p, save⟩ := r
      have hprog := strtok_progress q delim p save hs
      have hsave : save.length < fuel := by
        rcases hprog with ⟨h0, _⟩ | h0
        · subst h0; simp only [List.length_nil]; omega
        · omega
      obtain ⟨k1, hst, hsz⟩ := grow_store (done.map Cell.str) k (Cell.str p)
        (by simpa using h1)
      simp only [List.length_map] at hst hsz
      have hcap1 : capacity_for (done ++ [p]).length = (done ++ [p]).length + k1 := by
        simp only [List.length_append, List.length_singleton, capacity_for, hcap]
        rw [hsz]
      obtain ⟨toks, k2, hloop, hcap2, htrace, hcount⟩ := ih save (done ++ [p]) k1 hsave hcap1
      simp only [List.map_append, List.map_cons, List.map_nil, List.append_assoc,
        List.singleton_append, List.length_append, List.length_singleton, List.length_cons,
        List.length_nil, Nat.zero_add]
        at hloop hcap2 htrace
      have hal1 : (if done.length = done.length + k
          then realloc (List.map Cell.str done ++ List.replicate k Cell.uninit)
            (if done.length = done.length + k then (done.length + k) * 2 else done.length + k)
          else List.map Cell.str done ++ List.replicate k Cell.uninit).length
          = capacity_for (done.length + 1) := by
        simp only [capacity_for, hcap]
        split_ifs with h2
        · rw [realloc_length]
        · simp
      refine ⟨p :: toks, k2, ?_, ?_, ?_, ?_⟩
      · simp only [list_from_line_loop, hs]
        rw [hst]
        simp only
        rw [hsz, hloop]
        simp only [List.map_append, List.map_cons, List.length_append, List.length_cons,
          List.append_assoc]
      · simp only [List.length_append, List.length_cons]
        rw [← hcap2]
      · simp only [list_from_line_loop_stores, hs]
        rw [hal1, hst]
        simp only
        rw [hsz, htrace]
        simp only [List.length_cons, List.range'_succ, List.map_cons]
      · simp only [List.length_cons]
        rcases hprog with ⟨h0, h3⟩ | h0
        · subst h0
          simp only [List.length_nil] at hcount
          omega
        · omega

/-- C21. For every line and every set of delimiters, `list_from_line` ends without a fault and
returns the array of its fields followed by `NULL`, with `count` their number.  The stores it
makes are the fields at the indices 0, 1, ... in order, field `i` at a moment when the array
has `capacity_for (i + 1)` slots (it starts at 1 slot and doubles when full), and then the
terminator at index `count`, when the array has the capacity reached plus one if it is full
and that capacity otherwise; every store is at an index below the number of slots of that
moment, the array returned has the slots of the last store, and no index or capacity exceeds
the length of the line plus one. -/
theorem list_from_line_stores_in_bounds (line delim : Str) :
    ∃ (fields : List Str) (rest : Block),
      list_from_line line delim
        = Except.ok (fields.map Cell.str ++ Cell.null :: rest, fields.length)
      ∧ read_list (fields.map Cell.str ++ Cell.null :: rest) = Except.ok fields
      ∧ list_from_line_stores line delim
        = (List.range fields.length).map (fun i => (i, capacity_for (i + 1)))
          ++ [(fields.length,
                if fields.length = capacity_for fields.length
                then capacity_for fields.length + 1 else capacity_for fields.length)]
      ∧ (∀ p ∈ list_from_line_stores line delim, p.1 < p.2 ∧ p.2 ≤ line.length + 1)
      ∧ (fields.map Cell.str ++ Cell.null :: rest).length
        = (if fields.length = capacity_for fields.length
            then capacity_for fields.length + 1 else capacity_for fields.length) := by
  obtain ⟨toks, k1, hloop, hcap, htrace, hcount⟩ :=
    list_from_line_loop_stores_spec delim (line.length + 1) line [] 1 (by omega) rfl
  simp only [List.map_nil, List.nil_append, List.length_nil, Nat.zero_add] at hloop hcap htrace
  have ht := term_store (toks.map Cell.str) k1
  simp only [List.length_map] at ht
  have hstores : list_from_line_stores line delim
      = (List.range toks.length).map (fun i => (i, capacity_for (i + 1)))
        ++ [(toks.length,
              if toks.length = capacity_for toks.length
              then capacity_for toks.length + 1 else capacity_for toks.length)] := by
    simp only [list_from_line_stores, init_list]
    rw [htrace, hloop]
    simp only [List.range_eq_range']
    congr 2
    rw [hcap]
    split_ifs with h2
    · rw [realloc_length]
    · simp
  have hpos := capacity_for_pos toks.length
  have hle := capacity_for_le toks.length
  refine ⟨toks, List.replicate (k1 - 1) Cell.uninit, ?_, read_list_terminated _ _, hstores, ?_, ?_⟩
  · rw [list_from_line]
    simp only [init_list]
    rw [hloop]
    simp only
    rw [ht]
  · intro p hp
    rw [hstores] at hp
    rcases List.mem_append.1 hp with hp | hp
    · obtain ⟨i, hi, hpi⟩ := List.mem_map.1 hp
      have hi2 : i < toks.length := List.mem_range.1 hi
      have h3 := capacity_for_pos (i + 1)
      have h4 := capacity_for_mono (i + 1) toks.length hi2
      rw [← hpi]
      simp only
      omega
    · have hpe : p = (toks.length,
          if toks.length = capacity_for toks.length
          then capacity_for toks.length + 1 else capacity_for toks.length) := by
        simpa using hp
      rw [hpe]
      simp only
      split_ifs with h2 <;> omega
  · simp only [List.length_append, List.length_map, List.length_cons, List.length_replicate]
    split_ifs with h2 <;> omega

/-! ### Pipelines and blocks -/

/-- With every `pipe`, `fork`, `close` and `wait` succeeding, `process_pipeline` returns 0 and
adds to the history a part without any `wait`, in which the stages of the line are created in
order, and then one `wait` for each stage. -/
theorem process_pipeline_trace (sys : Sys) (hfork : ∀ w, sys.fork w = true)
    (hwait : ∀ w, ∃ st, sys.wait w = some st) (hpipe : ∀ w, ∃ fds, sys.pipe w = some fds)
    (hclose : ∀ w fd, sys.close w fd = true) (line : Str) (w : World) :
    ∃ (ext : World) (sts : List Int),
      process_pipeline sys line w = Except.ok (0, w ++ ext ++ sts.map Event.wait)
      ∧ (∀ e ∈ ext, is_wait e = false)
      ∧ launched ext = (split_drop_empty line '|').map (fun st => split_drop_empty st ' ')
      ∧ sts.length = (split_drop_empty line '|').length := by
  obtain ⟨ok, cmds, w1, h, hargv, hlen, hf, ht⟩ := pipeline_commands_spec sys line w
  have hok : ok = true := by
    cases ok with
    | true => rfl
    | false =>
      obtain ⟨w0, h0⟩ := hf rfl
      obtain ⟨fds, h1⟩ := hpipe w0
      rw [h1] at h0
      simp at h0
  subst hok
  obtain ⟨fds, hw1, _, _⟩ := ht rfl
  obtain ⟨done, ext, hr, hnw, hl⟩ := run_pipeline_loop_trace sys hfork hclose cmds [] 0 w1
  obtain ⟨sts, hwp, hsl⟩ := wait_pipeline_trace sys hwait cmds.length (w1 ++ ext)
  refine ⟨fds.map (fun p => Event.pipe p.1 p.2) ++ ext, sts, ?_, ?_, ?_, ?_⟩
  · rw [process_pipeline_run sys line w cmds w1 h]
    simp only [pipeline_run, run_pipeline, hr]
    have : ¬ (((0 + cmds.length : Nat) : Int) = -1) := by omega
    rw [if_neg this]
    simp only [Nat.zero_add, Int.toNat_ofNat]
    rw [hwp]
    simp only [hw1, List.append_assoc]
  · intro e he
    rcases List.mem_append.1 he with he | he
    · obtain ⟨p, _, hp⟩ := List.mem_map.1 he
      rw [← hp]; rfl
    · exact hnw e he
  · rw [launched_append, hl, hargv]
    have : ∀ l : List (Int × Int), launched (l.map (fun p => Event.pipe p.1 p.2)) = [] := by
      intro l
      induction l with
      | nil => rfl
      | cons p l ih => simpa [launched] using ih
    rw [this, List.nil_append]
  · rw [hsl, hlen]

theorem only_execute_events_refl (w : World) : only_execute_events w w :=
  ⟨[], by simp, by simp⟩

theorem only_execute_events_trans (w w1 w2 : World) (h1 : only_execute_events w w1)
    (h2 : only_execute_events w1 w2) : only_execute_events w w2 := by
  obtain ⟨e1, he1, hp1⟩ := h1
  obtain ⟨e2, he2, hp2⟩ := h2
  refine ⟨e1 ++ e2, by rw [he2, he1, List.append_assoc], ?_⟩
  intro e he
  rcases List.mem_append.1 he with h | h
  · exact hp1 e h
  · exact hp2 e h

theorem execute_events (sys : Sys) (av : Block) (status : Option Int) (w : World) :
    only_execute_events w (execute sys av status w).2.2 := by
  unfold execute
  by_cases hf : sys.fork w = true
  · simp only [hf, if_true]
    cases hw : sys.wait (w ++ [Event.fork (argv_of av) (-1) (-1)]) with
    | none =>
      refine ⟨[Event.fork (argv_of av) (-1) (-1), Event.wait_failed], by simp, ?_⟩
      intro e he
      simp only [List.mem_cons, List.mem_singleton, List.not_mem_nil, or_false] at he
      rcases he with h | h <;> subst h <;> rfl
    | some st =>
      refine ⟨[Event.fork (argv_of av) (-1) (-1), Event.wait st], by simp, ?_⟩
      intro e he
      simp only [List.mem_cons, List.mem_singleton, List.not_mem_nil, or_false] at he
      rcases he with h | h <;> subst h <;> rfl
  · simp only [hf]
    refine ⟨[Event.fork_failed], by simp, ?_⟩
    intro e he
    simp only [List.mem_singleton] at he
    subst he
    rfl

/-- Whatever the block holds and however it ends, `exec_block` makes only the calls of
`execute`: every entry is run as one simple command. -/
theorem exec_block_loop_events (sys : Sys) : ∀ (b : Block) (status : Option Int) (w : World),
    match exec_block_loop sys b status w with
    | Except.ok (_, _, w1) => only_execute_events w w1
    | Except.error (_, w1) => only_execute_events w w1 := by
  intro b
  induction b with
  | nil => intro status w; exact only_execute_events_refl w
  | cons c rest ih =>
    intro status w
    cases c with
    | uninit => exact only_execute_events_refl w
    | null => exact only_execute_events_refl w
    | str s =>
      simp only [exec_block_loop]
      cases hl : list_from_line s [' '] with
      | error f => exact only_execute_events_refl w
      | ok r =>
        obtain ⟨arglist, n⟩ := r
        have hex := execute_events sys arglist status w
        simp only
        by_cases hr : (execute sys arglist status w).1 = -1
        · rw [if_pos hr]
          exact hex
        · rw [if_neg hr]
          have h2 := ih (execute sys arglist status w).2.1 (execute sys arglist status w).2.2
          split at h2 <;> rename_i heq <;> rw [heq] <;>
            exact only_execute_events_trans _ _ _ hex h2

theorem exec_block_events (sys : Sys) (blk : Option Block) (status : Option Int) (w : World) :
    match exec_block sys blk status w with
    | Except.ok (_, _, w1) => only_execute_events w w1
    | Except.error (_, w1) => only_execute_events w w1 := by
  cases blk with
  | none => exact only_execute_events_refl w
  | some b => exact exec_block_loop_events sys b status w

/-- Whatever the blocks of the context hold, `exec_context` makes only the calls of `execute`:
every entry of a block is run as one simple command, never as a pipeline. -/
theorem exec_context_events (sys : Sys) (ctx : context) (w : World) :
    match exec_context sys ctx w with
    | Except.ok (_, w1) => only_execute_events w w1
    | Except.error (_, w1) => only_execute_events w w1 := by
  unfold exec_context
  have h1 := exec_block_events sys ctx.if_block (some 0) w
  cases he1 : exec_block sys ctx.if_block (some 0) w with
  | error e =>
    rw [he1] at h1
    exact h1
  | ok r =>
    obtain ⟨r1, status, w1⟩ := r
    rw [he1] at h1
    simp only at h1 ⊢
    by_cases hr : r1 = -1
    · rw [if_pos hr]
      exact h1
    · rw [if_neg hr]
      by_cases hx : WIFEXITED (status.getD 0) = true
      · rw [if_pos hx]
        have h2 := exec_block_events sys ctx.then_block status w1
        cases he2 : exec_block sys ctx.then_block status w1 with
        | error e =>
          rw [he2] at h2
          exact only_execute_events_trans _ _ _ h1 h2
        | ok r2 =>
          rw [he2] at h2
          exact only_execute_events_trans _ _ _ h1 h2
      · rw [if_neg hx]
        have h2 := exec_block_events sys ctx.else_block status w1
        cases he2 : exec_block sys ctx.else_block status w1 with
        | error e =>
          rw [he2] at h2
          exact only_execute_events_trans _ _ _ h1 h2
        | ok r2 =>
          rw [he2] at h2
          exact only_execute_events_trans _ _ _ h1 h2

/-- C10 (counterexample). The pipeline `ls|wc` entered in the collecting-if state is run when
it is read: both stages are created and waited for, and the if-block stays absent. -/
theorem pipeline_in_if_state_runs_at_once :
    run_lines sample_sys (["if", "ls|wc"].map entered) init_shell
      = Step.next
          { ctx := { empty_context with state := State.if_state }
            idx := 0
            sz := 1
            world := [Event.pipe 3 4,
              Event.fork ["ls".toList] (-1) 4, Event.free_args ["ls".toList], Event.close 4,
              Event.fork ["wc".toList] 3 (-1), Event.free_args ["wc".toList], Event.close 3,
              Event.wait 0, Event.wait 0] } := by
  decide

/-- C10 (amended). In a collecting state, with the current block holding the strings `fs`, a
line that is no keyword and does not begin with `exit` is treated by its content.  If it has a
`|`, `process_pipeline` runs it at once: with every system call succeeding, what is added to
the history is first a part without any `wait` in which its stages are created in order, then
one `wait` for each stage, and the context and the counters stay as they were.  If it has
none, no system call is made and its `;`-separated fields, each short enough for the buffer of
`add_cmd`, are appended in order to the current block (when the line has no field the context
stays as it was).  And whatever the blocks hold, `exec_context` makes only the calls of
`execute` (a `fork` without descriptors of a pipe, a `wait`): no entry of a block is run as a
pipeline. -/
theorem collecting_line (sys : Sys) (hfork : ∀ w, sys.fork w = true)
    (hwait : ∀ w, ∃ st, sys.wait w = some st) (hpipe : ∀ w, ∃ fds, sys.pipe w = some fds)
    (hclose : ∀ w fd, sys.close w fd = true)
    (s : Shell) (line : Str) (fs : List Str) (k : Nat)
    (hstate : s.ctx.state = State.if_state ∨ s.ctx.state = State.then_state
      ∨ s.ctx.state = State.else_state)
    (hblk : (block_by_state s.ctx).getD (init_list s.sz)
      = fs.map Cell.str ++ List.replicate k Cell.uninit)
    (hidx : s.idx = fs.length) (hsz : s.sz = fs.length + k) (h1 : 1 ≤ s.sz)
    (hctl : is_control_cmd line = false)
    (hexit : (line ++ ['\n']).take 4 ≠ "exit".toList)
    (hshort : is_pipeline line = false →
      ∀ f ∈ split_drop_empty line ';', f.length < sizeof_ptr) :
    (if is_pipeline line = true then
      ∃ (ext : World) (sts : List Int),
        main_body sys (line ++ ['\n']) s
          = Step.next { s with world := s.world ++ ext ++ sts.map Event.wait }
        ∧ (∀ e ∈ ext, is_wait e = false)
        ∧ launched ext
            = (split_drop_empty line '|').map (fun st => split_drop_empty st ' ')
        ∧ sts.length = (split_drop_empty line '|').length
    else
      ∃ k1, main_body sys (line ++ ['\n']) s
        = Step.next
            { ctx := if split_drop_empty line ';' = [] then s.ctx
                else set_block_by_state s.ctx
                  (some ((fs ++ split_drop_empty line ';').map Cell.str
                    ++ List.replicate k1 Cell.uninit))
              idx := (fs ++ split_drop_empty line ';').length
              sz := (fs ++ split_drop_empty line ';').length + k1
              world := s.world })
    ∧ (∀ (ctx : context) (w : World),
        match exec_context sys ctx w with
        | Except.ok (_, w1) => only_execute_events w w1
        | Except.error (_, w1) => only_execute_events w w1) := by
  refine ⟨?_, exec_context_events sys⟩
  by_cases hp : is_pipeline line = true
  · rw [if_pos hp]
    obtain ⟨ext, sts, hproc, hnw, hl, hn⟩ :=
      process_pipeline_trace sys hfork hwait hpipe hclose line s.world
    refine ⟨ext, sts, ?_, hnw, hl, hn⟩
    rw [main_body_pipeline sys line s hp hexit, hproc]
    simp
  · rw [if_neg hp]
    have hp2 : is_pipeline line = false := by simpa using hp
    obtain ⟨k1, h, _, _⟩ := plain_line_appended sys s line fs k hstate hblk hidx hsz h1
      ⟨hp2, hctl, hexit⟩ (hshort hp2)
    exact ⟨k1, h⟩

/-- The theorem `collecting_line` at the pipeline `ls|wc` entered after `if`: both stages are
created, then two calls of `wait` follow, and the context is as it was. -/
theorem collecting_line_witness :
    ∃ (ext : World) (sts : List Int),
      main_body sample_sys ("ls|wc".toList ++ ['\n'])
        { ctx := { empty_context with state := State.if_state }, idx := 0, sz := 1, world := [] }
        = Step.next
          { ctx := { empty_context with state := State.if_state }, idx := 0, sz := 1,
            world := [] ++ ext ++ sts.map Event.wait }
      ∧ (∀ e ∈ ext, is_wait e = false)
      ∧ launched ext = [["ls".toList], ["wc".toList]]
      ∧ sts.length = 2 := by
  have h := (collecting_line sample_sys (fun _ => rfl) (fun _ => ⟨_, rfl⟩)
    (fun _ => ⟨_, rfl⟩) (fun _ _ => rfl)
    { ctx := { empty_context with state := State.if_state }, idx := 0, sz := 1, world := [] }
    "ls|wc".toList [] 1 (Or.inl rfl) (by decide) rfl rfl (by decide) (by decide) (by decide)
    (fun h => absurd h (by decide))).1
  rw [if_pos (by decide)] at h
  obtain ⟨ext, sts, h1, h2, h3, h4⟩ := h
  refine ⟨ext, sts, h1, h2, ?_, ?_⟩
  · rw [h3]
    decide
  · rw [h4]
    decide

end Sh
